import Mathlib

/-!
Verification of the core of the `pit` data-pipeline orchestrator.

The definitions in this file are a shallow embedding, translated from the
Go sources of the repository:

* `internal/engine/run.go`      — task/run status vocabulary;
* `internal/engine/executor.go` — `topoSort`, `executeDAG`,
  `hasUpstreamFailure`, `executeTask` (retry loop), `Execute`
  (single-task mode and aggregate run status), `makeLoadDataHandler`;
* `internal/trigger/cron.go`    — cron events, the FTP-watch `poll` step
  and `FindStableFiles`;
* `internal/secrets/secrets.go` — `Store.lookup`, `Store.Resolve`,
  `Store.ResolveField`;
* `internal/sdk/server.go`      — `NewServer` handler registration and
  `handleConn` dispatch.

Go maps are embedded as association lists or as total functions with the
zero value as default, exactly where the Go code relies on the zero-value
behaviour of missing keys.  Concurrency inside one level of the DAG is
embedded sequentially: each task of a level reads the status snapshot taken
at the start of the level and writes only its own status, so the final run
state is independent of the interleaving.  Times and sizes are embedded as
`Int` (Go `time.Time` differences and `int64`).
-/

namespace Pit

/-- Task/run status, from `run.go` (`type TaskStatus string` and its
constants `pending`, `running`, `success`, `failed`, `skipped`,
`upstream_failed`). -/
inductive TaskStatus where
  | pending
  | running
  | success
  | failed
  | skipped
  | upstreamFailed
deriving DecidableEq, Repr

/-- The fields of `TaskInstance` (from `run.go`) that the scheduling layer
reads: the task name and its declared dependency list.  Retry/timeout
fields live in `TaskEnv` below, next to the retry-loop embedding. -/
structure TaskInstance where
  name : String
  dependsOn : List String
deriving DecidableEq, Repr

/-- The error message produced by `topoSort` when it cannot make progress
(`executor.go`, the `len(level) == 0` branch). -/
def cycleMsg : String := "cycle detected in task dependencies"

/-- `inDegree[t.Name] = len(t.DependsOn)` initialisation of `topoSort`:
later entries of the task list overwrite earlier ones, like successive Go
map assignments; a missing key reads as the Go zero value `0`. -/
def buildInDegree (tasks : List TaskInstance) : String → Int :=
  tasks.foldl (fun m t => fun x => if x = t.name then (t.dependsOn.length : Int) else m x)
    (fun _ => 0)

/-- One Go statement `dependents[dep] = append(dependents[dep], t.Name)`. -/
def addDependent (m : String → List String) (dep tname : String) : String → List String :=
  fun x => if x = dep then m dep ++ [tname] else m x

/-- The `dependents` map of `topoSort`: for every task `t` and every
occurrence of `dep` in `t.DependsOn`, `t.Name` is appended to
`dependents[dep]`.  A missing key reads as the Go zero value `nil`. -/
def buildDependents (tasks : List TaskInstance) : String → List String :=
  tasks.foldl (fun m t => t.dependsOn.foldl (fun m2 dep => addDependent m2 dep t.name) m)
    (fun _ => [])

/-- One Go statement `inDegree[dep]--`. -/
def decAt (f : String → Int) (n : String) : String → Int :=
  fun x => if x = n then f x - 1 else f x

/-- The inner decrement loop `for _, dep := range dependents[t.Name] {
inDegree[dep]-- }`. -/
def decList (f : String → Int) : List String → (String → Int)
  | [] => f
  | n :: rest => decList (decAt f n) rest

/-- The per-level bookkeeping loop of `topoSort`: for each task of the
level, mark its name resolved (`resolved[t.Name] = true`, idempotent) and
decrement the in-degree of each of its dependents. -/
def resolveLevel (dependents : String → List String)
    (st : List String × (String → Int)) (level : List TaskInstance) :
    List String × (String → Int) :=
  level.foldl
    (fun st t =>
      ((if t.name ∈ st.1 then st.1 else t.name :: st.1),
        decList st.2 (dependents t.name)))
    st

/-- The `for len(resolved) < len(tasks)` loop of `topoSort`, with explicit
fuel.  Each iteration either errors (empty level) or resolves at least one
new task name, so `tasks.length + 1` fuel is enough for the loop condition
to be reached; if the fuel were ever to run out the result is the same
cycle error the Go loop would reach. -/
def topoSortLoop (tasks : List TaskInstance) (dependents : String → List String) :
    Nat → List String → (String → Int) → List (List TaskInstance) →
    Except String (List (List TaskInstance))
  | 0, resolved, _, acc =>
      if resolved.length < tasks.length then .error cycleMsg else .ok acc.reverse
  | fuel + 1, resolved, inDeg, acc =>
      if resolved.length < tasks.length then
        let level := tasks.filter (fun t => ¬ t.name ∈ resolved ∧ inDeg t.name = 0)
        if level.isEmpty then .error cycleMsg
        else
          let st := resolveLevel dependents (resolved, inDeg) level
          topoSortLoop tasks dependents fuel st.1 st.2 (level :: acc)
      else .ok acc.reverse

/-- `topoSort` from `executor.go`: Kahn's algorithm grouping tasks into
execution levels (level 0 = no dependencies, level 1 = depends only on
level 0, and so on). -/
def topoSort (tasks : List TaskInstance) : Except String (List (List TaskInstance)) :=
  topoSortLoop tasks (buildDependents tasks) (tasks.length + 1) [] (buildInDegree tasks) []

/-- The ordering property of a level partition: every declared dependency
of a task at some level is the name of a task placed at a strictly earlier
level (`prior` accumulates the names of the levels already passed). -/
def LevelsOrdered : List (List TaskInstance) → List String → Prop
  | [], _ => True
  | lvl :: rest, prior =>
      (∀ t ∈ lvl, ∀ d ∈ t.dependsOn, d ∈ prior) ∧
      LevelsOrdered rest (prior ++ lvl.map TaskInstance.name)

/-- The level index of a name in a level partition (names outside the
partition get the index 0): a rank function witnessing acyclicity whenever
`topoSort` succeeds. -/
def rankOf : List (List TaskInstance) → String → Nat
  | [], _ => 0
  | lvl :: rest, n =>
      if n ∈ lvl.map TaskInstance.name then 0 else rankOf rest n + 1

/-- The loop invariant of `topoSort`: `resolved` is a duplicate-free list
of names of tasks, holding exactly the names placed in the accumulated
levels; every task's in-degree equals its dependency count minus the
occurrences of resolved names among its dependencies; the accumulated
levels consist of tasks, without repetition, and are ordered. -/
structure KahnInv (tasks : List TaskInstance) (resolved : List String)
    (inDeg : String → Int) (acc : List (List TaskInstance)) : Prop where
  rnodup : resolved.Nodup
  rsub : ∀ n ∈ resolved, n ∈ tasks.map TaskInstance.name
  deg : ∀ u ∈ tasks, inDeg u.name =
    (u.dependsOn.length : Int) - ((resolved.map (fun n => (u.dependsOn.count n : Int))).sum)
  accsub : ∀ t ∈ acc.flatten, t ∈ tasks
  accres : ∀ t ∈ acc.flatten, t.name ∈ resolved
  resacc : ∀ t ∈ tasks, t.name ∈ resolved → t ∈ acc.flatten
  accnodup : ((acc.flatten).map TaskInstance.name).Nodup
  ordered : LevelsOrdered acc.reverse []

/-- Task-level errors recorded in `TaskInstance.Error`: the runner error of
a numbered attempt, a context-cancellation error, or one of the failures
that precede the attempt loop of `executeTask` (runner resolution, dbt
configuration, log-file creation, script-path validation). -/
inductive TaskErr where
  | runErr (attempt : Nat)
  | ctxErr
  | preErr
deriving DecidableEq, Repr

/-- Observable events of one `executeTask` call: the start of a numbered
attempt (`r.Run` invoked), or a `retry_delay` sleep. -/
inductive TaskEv where
  | attempt (i : Nat)
  | sleep
deriving DecidableEq, Repr

/-- Outcome of one `executeTask` call: the final `Status`, the final value
of the `Attempt` counter, the final `Error` field, and the ordered trace of
attempts and sleeps. -/
structure TaskResult where
  status : TaskStatus
  attempts : Nat
  err : Option TaskErr
  trace : List TaskEv
deriving DecidableEq, Repr

/-- The `for attempt := 1; attempt <= maxAttempts; attempt++` loop of
`executeTask` (`executor.go`).  `fuel` is the number of attempts still
allowed (initially `maxAttempts`), `attempt` the 1-based attempt counter.
Mirrored branch by branch:

* `ti.Attempt = attempt` then the `ctx.Err() != nil` check (→ `failed`
  with the context error);
* `err = r.Run(...)`; on `err == nil` → `success` (the `Error` field keeps
  whatever a previous failed attempt stored, as in the Go code);
* on failure the error is recorded, and when `attempt < maxAttempts`
  (`fuel ≠ 0` after this attempt) and `RetryDelay > 0` the loop sleeps,
  returning `failed` with the context error if the parent context is
  cancelled during the sleep;
* falling out of the loop → `failed` with the last recorded error. -/
def attemptLoop (fails ctxBefore ctxSleep : Nat → Bool) (retryDelay : Nat) :
    Nat → Nat → Option TaskErr → List TaskEv → TaskResult
  | 0, attempt, lastErr, tr =>
      { status := .failed, attempts := attempt - 1, err := lastErr, trace := tr.reverse }
  | fuel + 1, attempt, lastErr, tr =>
      if ctxBefore attempt then
        { status := .failed, attempts := attempt, err := some .ctxErr, trace := tr.reverse }
      else
        let tr1 := TaskEv.attempt attempt :: tr
        if ¬ fails attempt then
          { status := .success, attempts := attempt, err := lastErr, trace := tr1.reverse }
        else
          let lastErr1 := some (TaskErr.runErr attempt)
          if fuel = 0 then
            attemptLoop fails ctxBefore ctxSleep retryDelay fuel (attempt + 1) lastErr1 tr1
          else if retryDelay > 0 then
            if ctxSleep attempt then
              { status := .failed, attempts := attempt, err := some .ctxErr,
                trace := tr1.reverse }
            else
              attemptLoop fails ctxBefore ctxSleep retryDelay fuel (attempt + 1) lastErr1
                (TaskEv.sleep :: tr1)
          else
            attemptLoop fails ctxBefore ctxSleep retryDelay fuel (attempt + 1) lastErr1 tr1

/-- The environment one `executeTask` call runs against: whether one of the
steps before the attempt loop fails (runner resolution, dbt configuration,
log-file creation, script validation — all of which set `failed` and
return), which attempts the runner fails, where the parent context is
observed cancelled, and the task's `MaxRetries`/`RetryDelay` fields. -/
structure TaskEnv where
  pre : Bool
  fails : Nat → Bool
  ctxBefore : Nat → Bool
  ctxSleep : Nat → Bool
  maxRetries : Nat
  retryDelay : Nat

/-- `executeTask` from `executor.go`: any failure before the attempt loop
marks the task `failed` (with the `Attempt` counter still at its zero
value); otherwise the loop runs with `maxAttempts = MaxRetries + 1`. -/
def executeTask (e : TaskEnv) : TaskResult :=
  if e.pre then { status := .failed, attempts := 0, err := some .preErr, trace := [] }
  else attemptLoop e.fails e.ctxBefore e.ctxSleep e.retryDelay (e.maxRetries + 1) 1 none []

/-- The mutable per-instance state of `Run.Tasks`: each `TaskInstance`
paired with its current `Status`. -/
abbrev RunState := List (TaskInstance × TaskStatus)

/-- Reading the per-level status snapshot `statusMap[name]`.  A missing
key yields the Go zero value `TaskStatus("")`, which — like `pending` —
is neither `failed` nor `upstream_failed`; the embedding returns `pending`
for it, which is indistinguishable for every comparison the code makes. -/
def lookupStatus (st : RunState) (n : String) : TaskStatus :=
  match st.find? (fun p => p.1.name = n) with
  | some p => p.2
  | none => .pending

/-- Writing `ti.Status = s` for the instance(s) named `n`.  In the Go code
the write goes through the instance pointer; the embedding updates by
name, which coincides with it whenever task names are unique (the DAG data
model requires them to be, and `topoSort` errors whenever they are not). -/
def setStatus (st : RunState) (n : String) (s : TaskStatus) : RunState :=
  st.map (fun p => if p.1.name = n then (p.1, s) else p)

/-- `hasUpstreamFailure` from `executor.go`: does any declared dependency
read as `failed` or `upstream_failed` in the level's status snapshot? -/
def hasUpstreamFailure (ti : TaskInstance) (statusMap : String → TaskStatus) : Bool :=
  ti.dependsOn.any (fun dep =>
    decide (statusMap dep = .failed ∨ statusMap dep = .upstreamFailed))

/-- One level of `executeDAG` when the run context is already cancelled:
every still-`pending` task of the level is marked `failed` with the context
error, and the level is skipped. -/
def cancelLevel (st : RunState) (level : List TaskInstance) : RunState :=
  level.foldl
    (fun s t => if lookupStatus s t.name = .pending then setStatus s t.name .failed else s)
    st

/-- One level of `executeDAG` in the normal case: the status snapshot
`statusMap` is taken once at the start of the level; each task is either
marked `upstream_failed` (dependency failure in the snapshot) or runs
`executeTask`.  Dispatch inside a level is concurrent in Go, but every
task reads only the pre-level snapshot and writes only its own status, so
the sequential fold computes the same final state. -/
def runLevel (env : String → TaskEnv) (st : RunState) (level : List TaskInstance) : RunState :=
  let statusMap := fun n => lookupStatus st n
  level.foldl
    (fun s t =>
      if hasUpstreamFailure t statusMap then setStatus s t.name .upstreamFailed
      else setStatus s t.name (executeTask (env t.name)).status)
    st

/-- `executeDAG` from `executor.go`: levels are processed in order; at each
level the run context is checked first (`ctxAt i` embeds `ctx.Err() != nil`
observed at level `i`). -/
def executeDAG (env : String → TaskEnv) (ctxAt : Nat → Bool) :
    List (List TaskInstance) → Nat → RunState → RunState
  | [], _, st => st
  | level :: rest, i, st =>
      let st1 := if ctxAt i then cancelLevel st level else runLevel env st level
      executeDAG env ctxAt rest (i + 1) st1

/-- The aggregate run status computed at the end of `Execute`:
`StatusSuccess` unless some task ended `failed` or `upstream_failed`. -/
def runStatus (st : RunState) : TaskStatus :=
  if st.any (fun p => decide (p.2 = .failed ∨ p.2 = .upstreamFailed)) then .failed
  else .success

/-- Result of `Execute`: an error (unknown single task, or the `topoSort`
cycle error), or the final run state together with the aggregate status. -/
inductive ExecResult where
  | err (msg : String)
  | ok (st : RunState) (status : TaskStatus)
deriving Repr

/-- Single-task mode of `Execute`: the instances named `taskName` are set
`pending`, all others `skipped`; then the first instance with that name
runs `executeTask` (the Go loop breaks after it). -/
def setFirstStatus : RunState → String → TaskStatus → RunState
  | [], _, _ => []
  | p :: rest, n, s =>
      if p.1.name = n then (p.1, s) :: rest else p :: setFirstStatus rest n s

/-- `Execute` from `executor.go`, restricted to the scheduling skeleton:
build the pending run state from the task list; in single-task mode mark
and run only the selected task, otherwise `topoSort` then `executeDAG`;
finally compute the aggregate status. -/
def ExecuteModel (tasks : List TaskInstance) (env : String → TaskEnv)
    (ctxAt : Nat → Bool) (taskName : Option String) : ExecResult :=
  let st0 : RunState := tasks.map (fun t => (t, .pending))
  match taskName with
  | some tn =>
      if tasks.any (fun t => t.name = tn) then
        let st1 := st0.map (fun p => if p.1.name = tn then (p.1, TaskStatus.pending)
          else (p.1, TaskStatus.skipped))
        let st2 := setFirstStatus st1 tn (executeTask (env tn)).status
        .ok st2 (runStatus st2)
      else .err ("task not found in DAG")
  | none =>
      match topoSort tasks with
      | .error m => .err m
      | .ok levels =>
          let st1 := executeDAG env ctxAt levels 0 st0
          .ok st1 (runStatus st1)

/-- `trigger.Event` (package `trigger`): a trigger firing for a DAG.
`Files` is `nil` for cron events, embedded as the empty list. -/
structure Event where
  dagName : String
  source : String
  files : List String
deriving DecidableEq, Repr

/-- The event sent by the cron callback installed in `CronTrigger.Start`
(`cron.go`): `Event{DAGName: ct.dagName, Source: "cron"}`. -/
def cronEvent (dagName : String) : Event :=
  { dagName := dagName, source := "cron", files := [] }

/-- `fileState` from the FTP-watch trigger: last observed size and the
time the current size was first seen. -/
structure FileState where
  size : Int
  firstSeen : Int
deriving DecidableEq, Repr

/-- The `tracking map[string]fileState` of one FTP-watch trigger, as an
association list with unique keys. -/
abbrev Tracking := List (String × FileState)

/-- Go map read `tracking[name]`. -/
def trackGet : Tracking → String → Option FileState
  | [], _ => none
  | p :: rest, n => if p.1 = n then some p.2 else trackGet rest n

/-- Go map write `tracking[name] = v` (replace in place, else append). -/
def trackSet : Tracking → String → FileState → Tracking
  | [], n, v => [(n, v)]
  | p :: rest, n, v => if p.1 = n then (n, v) :: rest else p :: trackSet rest n v

/-- The first half of `FTPWatchTrigger.poll`: for each currently listed
file, `if !exists || prev.Size != f.Size` reset the tracking entry to
`{Size: f.Size, FirstSeen: now}`. -/
def updateTracking (tr : Tracking) (files : List (String × Int)) (now : Int) : Tracking :=
  files.foldl
    (fun acc f =>
      match trackGet acc f.1 with
      | some prev => if prev.size ≠ f.2 then trackSet acc f.1 ⟨f.2, now⟩ else acc
      | none => trackSet acc f.1 ⟨f.2, now⟩)
    tr

/-- The second half of the tracking update: every previously tracked
filename that is not in the `seen` set of the current listing is
deleted. -/
def removeMissing (tr : Tracking) (files : List (String × Int)) : Tracking :=
  tr.filter (fun p => files.any (fun f => f.1 = p.1))

/-- `FindStableFiles` from `cron.go`: the names whose
`now.Sub(state.FirstSeen) >= threshold`. -/
def FindStableFiles (tr : Tracking) (threshold now : Int) : List String :=
  (tr.filter (fun p => now - p.2.firstSeen ≥ threshold)).map (fun p => p.1)

/-- One `FTPWatchTrigger.poll` tick after a successful listing: update the
tracking state, drop vanished files, compute the stable set, remove stable
entries from tracking, and emit one `ftp_watch` event when the stable set
is non-empty. -/
def pollStep (dagName : String) (tr : Tracking) (files : List (String × Int))
    (now threshold : Int) : Tracking × Option Event :=
  let tr1 := updateTracking tr files now
  let tr2 := removeMissing tr1 files
  let stable := FindStableFiles tr2 threshold now
  if stable.isEmpty then (tr2, none)
  else
    (tr2.filter (fun p => ¬ p.1 ∈ stable),
      some { dagName := dagName, source := "ftp_watch", files := stable })

/-- The poll loop of `FTPWatchTrigger.Start` over a finite observation
trace: each observation is a tick time paired with the directory listing
seen at that tick; the emitted events are collected in order. -/
def pollRun (dagName : String) (threshold : Int) :
    List (Int × List (String × Int)) → Tracking → Tracking × List (Option Event)
  | [], tr => (tr, [])
  | (now, files) :: rest, tr =>
      let r := pollStep dagName tr files now threshold
      let rr := pollRun dagName threshold rest r.1
      (rr.1, r.2 :: rr.2)

/-- `secrets.Secret`: either a plain string value or a table of
string-valued fields (`secrets.go`). -/
inductive Secret where
  | plain (v : String)
  | structured (fields : List (String × String))
deriving DecidableEq, Repr

/-- One TOML section of the secrets store: key to secret. -/
abbrev SecSection := List (String × Secret)

/-- `secrets.Store.data : map[string]map[string]Secret`, as an association
list from scope to section. -/
abbrev Store := List (String × SecSection)

/-- Association-list read with Go `value, ok := m[k]` semantics. -/
def assocGet {β : Type} : List (String × β) → String → Option β
  | [], _ => none
  | p :: rest, k => if p.1 = k then some p.2 else assocGet rest k

/-- Hexadecimal digit used by the JSON escaper. -/
def hexDigit (n : Nat) : Char :=
  if n < 10 then Char.ofNat (48 + n) else Char.ofNat (87 + n)

/-- JSON string escaping as `encoding/json` performs it on the field
values of a `map[string]string` (quote, backslash, the HTML-unsafe
characters, newline/carriage-return/tab, and other control characters as
`\u00XX`). -/
def jsonEscapeChar (c : Char) : String :=
  if c = '"' then "\\\""
  else if c = '\\' then "\\\\"
  else if c = '\n' then "\\n"
  else if c = '\r' then "\\r"
  else if c = '\t' then "\\t"
  else if c = '<' then "\\u003c"
  else if c = '>' then "\\u003e"
  else if c = '&' then "\\u0026"
  else if c.toNat < 32 then
    "\\u00" ++ String.mk [hexDigit (c.toNat / 16), hexDigit (c.toNat % 16)]
  else String.mk [c]

/-- A JSON string literal for `s`. -/
def jsonString (s : String) : String :=
  "\"" ++ String.join (s.toList.map jsonEscapeChar) ++ "\""

/-- Insertion into a key-sorted field list (`encoding/json` marshals the
keys of a Go map in sorted order). -/
def insertByKey (p : String × String) : List (String × String) → List (String × String)
  | [] => [p]
  | q :: rest => if p.1 < q.1 then p :: q :: rest else q :: insertByKey p rest

/-- Sort a field list by key. -/
def sortByKey (l : List (String × String)) : List (String × String) :=
  l.foldr insertByKey []

/-- `json.Marshal` of a `map[string]string`: a JSON object with the keys
in sorted order. -/
def jsonMarshalFields (fields : List (String × String)) : String :=
  "\x7b" ++
    String.intercalate ","
      ((sortByKey fields).map (fun p => jsonString p.1 ++ ":" ++ jsonString p.2)) ++
  "\x7d"

/-- Go `%q` of a plain name, as used by the error messages the embedding
keeps (no exotic characters appear in them). -/
def goQuote (s : String) : String := "\"" ++ s ++ "\""

/-- `Store.lookup` from `secrets.go`: the project-scoped section first;
on a miss (section absent, or key absent from it) the `global` section. -/
def Store.lookup (s : Store) (project key : String) : Option Secret :=
  match assocGet s project with
  | some psec =>
      match assocGet psec key with
      | some sec => some sec
      | none =>
          match assocGet s "global" with
          | some gsec => assocGet gsec key
          | none => none
  | none =>
      match assocGet s "global" with
      | some gsec => assocGet gsec key
      | none => none

/-- `Store.Resolve` from `secrets.go`: a plain secret resolves to its
value; a structured secret resolves to the JSON object of its fields; a
miss is an error. -/
def Store.Resolve (s : Store) (project key : String) : Except String String :=
  match Store.lookup s project key with
  | some (.structured fields) => .ok (jsonMarshalFields fields)
  | some (.plain v) => .ok v
  | none =>
      .error ("secret " ++ goQuote key ++ " not found for project " ++ goQuote project)

/-- `Store.ResolveField` from `secrets.go`: a single field of a structured
secret; a plain secret, a missing secret or a missing field are errors. -/
def Store.ResolveField (s : Store) (project secret field : String) : Except String String :=
  match Store.lookup s project secret with
  | some (.plain _) =>
      .error ("secret " ++ goQuote secret ++
        " is a plain value, not a structured secret (use Resolve instead)")
  | some (.structured fields) =>
      match assocGet fields field with
      | some val => .ok val
      | none =>
          .error ("field " ++ goQuote field ++ " not found in secret " ++ goQuote secret ++
            " for project " ++ goQuote project)
  | none =>
      .error ("secret " ++ goQuote secret ++ " not found for project " ++ goQuote project)

/-- `sdk.Request`: method name plus string-to-string params. -/
structure Request where
  method : String
  params : List (String × String)

/-- `sdk.Response`: the `error` field is the empty string when omitted. -/
structure Response where
  result : String
  error : String
deriving DecidableEq, Repr

/-- Go map read `params[k]`: a missing key yields the zero value `""`. -/
def getParam (params : List (String × String)) (k : String) : String :=
  match assocGet params k with
  | some v => v
  | none => ""

/-- A registered SDK handler (`sdk.HandlerFunc`), with the Go
`(string, error)` return embedded as `Except`. -/
abbrev HandlerFunc := List (String × String) → Except String String

/-- The handler table built by `sdk.NewServer` (`server.go`): with a nil
store no handler is registered; with a store, `get_secret` and
`get_secret_field` are registered, each checking its required parameters
before delegating to the store. -/
def newServerHandlers (store : Option Store) (dagName : String) :
    List (String × HandlerFunc) :=
  match store with
  | none => []
  | some st =>
      [("get_secret", fun params =>
          let key := getParam params "key"
          if key = "" then .error "missing required parameter: key"
          else Store.Resolve st dagName key),
       ("get_secret_field", fun params =>
          let secret := getParam params "secret"
          if secret = "" then .error "missing required parameter: secret"
          else
            let field := getParam params "field"
            if field = "" then .error "missing required parameter: field"
            else Store.ResolveField st dagName secret field)]

/-- `Server.handleConn` after a successful decode (`server.go`): unknown
methods answer `unknown method: <method>`; otherwise the handler runs and
its error or result is returned. -/
def handleConn (handlers : List (String × HandlerFunc)) (req : Request) : Response :=
  match assocGet handlers req.method with
  | none => { result := "", error := "unknown method: " ++ req.method }
  | some h =>
      match h req.params with
      | .ok r => { result := r, error := "" }
      | .error e => { result := "", error := e }

/-- `strings.HasPrefix(s, pre)`.  Stated on the character lists backing the
strings (UTF-8 is a prefix code, so character-prefix and byte-prefix
agree); `List.isPrefixOf` is structurally recursive, which keeps the
definition computable by the kernel. -/
def goHasPrefix (s pre : String) : Bool :=
  pre.toList.isPrefixOf s.toList

/-- Splitting a character list at `/`, as `strings.Split(s, "/")` does:
`splitSlash "a//b" = ["a", "", "b"]`, `splitSlash "" = [""]`. -/
def splitSlash : List Char → List (List Char)
  | [] => [[]]
  | c :: rest =>
      match splitSlash rest with
      | [] => [[]]
      | cur :: parts => if c = '/' then [] :: cur :: parts else (c :: cur) :: parts

/-- Splitting a string at the path separator. -/
def goSplit (s : String) : List String :=
  (splitSlash s.toList).map String.mk

/-- The element processing of `path/filepath.Clean` on a Unix separator:
empty and `.` elements are dropped; `..` pops the last real element, is
dropped at the root, and accumulates at the front of a relative path. -/
def cleanElems (rooted : Bool) : List String → List String → List String
  | [], acc => acc.reverse
  | e :: rest, acc =>
      if e = "" ∨ e = "." then cleanElems rooted rest acc
      else if e = ".." then
        match acc with
        | a :: acc2 =>
            if a = ".." then cleanElems rooted rest (".." :: a :: acc2)
            else cleanElems rooted rest acc2
        | [] =>
            if rooted then cleanElems rooted rest []
            else cleanElems rooted rest [".."]
      else cleanElems rooted rest (e :: acc)

/-- `filepath.Clean` for slash-separated paths: the lexical simplification
Go applies, returning `.` for an empty result and keeping the leading
slash of rooted paths. -/
def goClean (p : String) : String :=
  if p = "" then "."
  else
    let rooted := goHasPrefix p "/"
    let elems := cleanElems rooted (goSplit p) []
    let joined := String.intercalate "/" elems
    if rooted then "/" ++ joined
    else if joined = "" then "." else joined

/-- `filepath.Join(a, b)`: empty elements are skipped, the rest joined
with the separator and cleaned; all-empty input stays empty. -/
def goJoin (a b : String) : String :=
  if a = "" ∧ b = "" then ""
  else if a = "" then goClean b
  else if b = "" then goClean a
  else goClean (a ++ "/" ++ b)

/-- `filepath.Abs` with the working directory made explicit: an absolute
path is cleaned, a relative one joined onto the working directory. -/
def goAbs (cwd p : String) : String :=
  if goHasPrefix p "/" then goClean p else goJoin cwd p

/-- Outcome of the `load_data` handler: an error response, or the load
step reached with the resolved absolute file path, table, schema, mode and
connection string (`loader.Load` itself is outside the embedding; reaching
`loaded` is what "attempting the load" means). -/
inductive LoadOutcome where
  | err (msg : String)
  | loaded (absFile table schema mode connStr : String)
deriving DecidableEq, Repr

/-- The handler returned by `makeLoadDataHandler` (`executor.go`): the
required parameters and the store are checked; `schema`/`mode` default to
`dbo`/`append`; the file path is joined onto the run's data directory and
made absolute, and any result that is neither the data directory itself
nor strictly inside it (prefix bounded by the separator) is rejected
before the connection is resolved and the load is attempted.  `cwd` stands
for the working directory `filepath.Abs` consults; the Go `filepath.Abs`
error branches (working-directory lookup failures) have no counterpart
under an explicit `cwd`. -/
def makeLoadDataHandler (store : Option Store) (dagName dataDir cwd : String)
    (params : List (String × String)) : LoadOutcome :=
  let fileName := getParam params "file"
  let table := getParam params "table"
  let connKey := getParam params "connection"
  if fileName = "" then .err "missing required parameter: file"
  else if table = "" then .err "missing required parameter: table"
  else if connKey = "" then .err "missing required parameter: connection"
  else
    match store with
    | none => .err "secrets store not configured (use --secrets flag)"
    | some st =>
        let schema := if getParam params "schema" = "" then "dbo" else getParam params "schema"
        let mode := if getParam params "mode" = "" then "append" else getParam params "mode"
        let filePath := goJoin dataDir fileName
        let absFile := goAbs cwd filePath
        let absData := goAbs cwd dataDir
        if ¬ goHasPrefix absFile (absData ++ "/") ∧ absFile ≠ absData then
          .err ("file path " ++ goQuote fileName ++ " escapes data directory")
        else
          match Store.Resolve st dagName connKey with
          | .error e => .err ("resolving connection " ++ goQuote connKey ++ ": " ++ e)
          | .ok connStr => .loaded absFile table schema mode connStr

/-- The trace an always-failing task is expected to leave, starting at
attempt number `a` with `fuel` attempts left: the attempts in order, with
one sleep after every attempt except the last when `retryDelay > 0`. -/
def failTraceFrom (retryDelay : Nat) : Nat → Nat → List TaskEv
  | _, 0 => []
  | a, 1 => [.attempt a]
  | a, fuel + 2 =>
      .attempt a :: ((if 0 < retryDelay then [TaskEv.sleep] else []) ++
        failTraceFrom retryDelay (a + 1) (fuel + 1))

/-- The full expected trace of an always-failing task: attempts
`1 .. maxAttempts`, sleeping between consecutive attempts (when
`retryDelay > 0`) and never after the last one. -/
def failTrace (retryDelay maxAttempts : Nat) : List TaskEv :=
  failTraceFrom retryDelay 1 maxAttempts

/-! ## Secrets resolution (claim C7) -/

/-- C7: `Resolve` consults the project-scoped section first and the
`global` section only on a miss.  On a store holding only `[global].k = v`
every project resolves `k` to `v`; adding `[p].k = v2` (for a
project-scoped section `p ≠ global`) makes project `p` resolve to `v2`
while every other project `q` still resolves to `v`. -/
theorem resolve_project_scope_first (p q k v v2 : String)
    (hp : p ≠ "global") (hq : q ≠ p) :
    (∀ r : String, Store.Resolve [("global", [(k, .plain v)])] r k = .ok v) ∧
    Store.Resolve [(p, [(k, .plain v2)]), ("global", [(k, .plain v)])] p k = .ok v2 ∧
    Store.Resolve [(p, [(k, .plain v2)]), ("global", [(k, .plain v)])] q k = .ok v := by
  refine ⟨fun r => ?_, ?_, ?_⟩
  · by_cases hr : r = "global"
    · simp [Store.Resolve, Store.lookup, assocGet, hr]
    · simp [Store.Resolve, Store.lookup, assocGet, hr, Ne.symm hr]
  · simp [Store.Resolve, Store.lookup, assocGet]
  · by_cases hg : q = "global"
    · simp [Store.Resolve, Store.lookup, assocGet, hp, hq, hg, Ne.symm hp, Ne.symm hq]
    · simp [Store.Resolve, Store.lookup, assocGet, hp, hq, hg, Ne.symm hp, Ne.symm hq,
        Ne.symm hg]

/-- Witness for C7 at concrete values. -/
theorem resolve_project_scope_first_witness :
    (∀ r : String, Store.Resolve [("global", [("k", .plain "v")])] r "k" = .ok "v") ∧
    Store.Resolve [("proj", [("k", .plain "w")]), ("global", [("k", .plain "v")])]
      "proj" "k" = .ok "w" ∧
    Store.Resolve [("proj", [("k", .plain "w")]), ("global", [("k", .plain "v")])]
      "other" "k" = .ok "v" :=
  resolve_project_scope_first "proj" "other" "k" "v" "w" (by decide) (by decide)

/-! ## SDK server handler registration (claim C10) -/

/-- C10: with a nil secrets store `NewServer` registers no handler, so
`get_secret` and `get_secret_field` requests are answered with
`unknown method: <method>`; with a store both handlers are registered, and
a missing `key`/`secret`/`field` parameter is answered with the
corresponding `missing required parameter` error. -/
theorem sdk_secret_handler_registration :
    (∀ dagName : String, newServerHandlers none dagName = []) ∧
    (∀ dagName st, (newServerHandlers (some st) dagName).map (fun h => h.1) =
      ["get_secret", "get_secret_field"]) ∧
    (∀ dagName params m, m = "get_secret" ∨ m = "get_secret_field" →
      handleConn (newServerHandlers none dagName) ⟨m, params⟩ =
        ⟨"", "unknown method: " ++ m⟩) ∧
    (∀ dagName st params, getParam params "key" = "" →
      handleConn (newServerHandlers (some st) dagName) ⟨"get_secret", params⟩ =
        ⟨"", "missing required parameter: key"⟩) ∧
    (∀ dagName st params, getParam params "secret" = "" →
      handleConn (newServerHandlers (some st) dagName) ⟨"get_secret_field", params⟩ =
        ⟨"", "missing required parameter: secret"⟩) ∧
    (∀ dagName st params, getParam params "secret" ≠ "" → getParam params "field" = "" →
      handleConn (newServerHandlers (some st) dagName) ⟨"get_secret_field", params⟩ =
        ⟨"", "missing required parameter: field"⟩) := by
  refine ⟨fun _ => rfl, fun _ _ => rfl, ?_, ?_, ?_, ?_⟩
  · rintro dagName params m (rfl | rfl) <;> rfl
  · intro dagName st params hk
    simp [handleConn, newServerHandlers, assocGet, hk]
  · intro dagName st params hs
    simp [handleConn, newServerHandlers, assocGet, hs]
  · intro dagName st params hs hf
    simp [handleConn, newServerHandlers, assocGet, hs, hf]

/-- Witness for C10 at concrete requests. -/
theorem sdk_secret_handler_registration_witness :
    handleConn (newServerHandlers none "d") ⟨"get_secret", [("key", "k")]⟩ =
      ⟨"", "unknown method: get_secret"⟩ ∧
    handleConn (newServerHandlers none "d") ⟨"get_secret_field", []⟩ =
      ⟨"", "unknown method: get_secret_field"⟩ ∧
    handleConn (newServerHandlers (some [("global", [("k", .plain "v")])]) "d")
      ⟨"get_secret", []⟩ = ⟨"", "missing required parameter: key"⟩ ∧
    handleConn (newServerHandlers (some [("global", [("k", .plain "v")])]) "d")
      ⟨"get_secret_field", []⟩ = ⟨"", "missing required parameter: secret"⟩ ∧
    handleConn (newServerHandlers (some [("global", [("k", .plain "v")])]) "d")
      ⟨"get_secret_field", [("secret", "s")]⟩ =
        ⟨"", "missing required parameter: field"⟩ :=
  ⟨sdk_secret_handler_registration.2.2.1 "d" [("key", "k")] "get_secret" (Or.inl rfl),
   sdk_secret_handler_registration.2.2.1 "d" [] "get_secret_field" (Or.inr rfl),
   sdk_secret_handler_registration.2.2.2.1 "d" _ [] rfl,
   sdk_secret_handler_registration.2.2.2.2.1 "d" _ [] rfl,
   sdk_secret_handler_registration.2.2.2.2.2 "d" _ [("secret", "s")] (by decide) rfl⟩

/-! ## Trigger event shape (claim C9) -/

/-- C9 counterexample: the FTP-watch poll emits events whose `Source` is
the string `ftp_watch`, which is neither `cron` nor the `file_watch` the
claim allows. -/
theorem event_source_counterexample :
    (pollStep "d" [("f", ⟨100, 0⟩)] [("f", 100)] 3 2).2 =
      some { dagName := "d", source := "ftp_watch", files := ["f"] } ∧
    ("ftp_watch" : String) ≠ "cron" ∧ ("ftp_watch" : String) ≠ "file_watch" := by
  refine ⟨by decide, by decide, by decide⟩

/-- C9 amended: every emitted trigger event has source `cron` or
`ftp_watch` (the code's label for file-arrival events), and the files list
is non-empty exactly on `ftp_watch` events: cron events carry an empty
list, and a poll event is only sent when its stable set is non-empty. -/
theorem event_source_and_files :
    (∀ dagName, (cronEvent dagName).source = "cron" ∧ (cronEvent dagName).files = []) ∧
    (∀ dagName tr files now threshold tr2 ev,
      pollStep dagName tr files now threshold = (tr2, some ev) →
      ev.source = "ftp_watch" ∧ ev.files ≠ []) := by
  refine ⟨fun _ => ⟨rfl, rfl⟩, ?_⟩
  intro dagName tr files now threshold tr2 ev h
  unfold pollStep at h
  by_cases he :
    (FindStableFiles (removeMissing (updateTracking tr files now) files) threshold now).isEmpty
  · simp [he] at h
  · simp [he] at h
    refine ⟨by rw [← h.2], ?_⟩
    rw [← h.2]
    simp only [ne_eq]
    intro hfiles
    exact he (by simp [hfiles])

/-- Witness for C9 (amended) at a concrete poll. -/
theorem event_source_and_files_witness :
    (cronEvent "d").source = "cron" ∧ (cronEvent "d").files = [] ∧
    ({ dagName := "d", source := "ftp_watch", files := ["f"] } : Event).source = "ftp_watch" ∧
    ({ dagName := "d", source := "ftp_watch", files := ["f"] } : Event).files ≠ [] :=
  ⟨(event_source_and_files.1 "d").1, (event_source_and_files.1 "d").2,
   (event_source_and_files.2 "d" [("f", ⟨100, 0⟩)] [("f", 100)] 3 2 []
      { dagName := "d", source := "ftp_watch", files := ["f"] } (by decide)).1,
   (event_source_and_files.2 "d" [("f", ⟨100, 0⟩)] [("f", 100)] 3 2 []
      { dagName := "d", source := "ftp_watch", files := ["f"] } (by decide)).2⟩

/-! ## Task retry loop (claim C4) -/

theorem attemptLoop_succ (fails ctxB ctxS : Nat → Bool) (d f a : Nat)
    (lastErr : Option TaskErr) (tr : List TaskEv) :
    attemptLoop fails ctxB ctxS d (f + 1) a lastErr tr =
      if ctxB a then
        { status := .failed, attempts := a, err := some .ctxErr, trace := tr.reverse }
      else if ¬ fails a then
        { status := .success, attempts := a, err := lastErr,
          trace := (TaskEv.attempt a :: tr).reverse }
      else if f = 0 then
        attemptLoop fails ctxB ctxS d f (a + 1) (some (.runErr a)) (TaskEv.attempt a :: tr)
      else if 0 < d then
        if ctxS a then
          { status := .failed, attempts := a, err := some .ctxErr,
            trace := (TaskEv.attempt a :: tr).reverse }
        else
          attemptLoop fails ctxB ctxS d f (a + 1) (some (.runErr a))
            (TaskEv.sleep :: TaskEv.attempt a :: tr)
      else attemptLoop fails ctxB ctxS d f (a + 1) (some (.runErr a))
        (TaskEv.attempt a :: tr) := rfl

theorem attemptLoop_always_fails (fails ctxB ctxS : Nat → Bool) (d : Nat)
    (hf : ∀ i, fails i = true) (hcb : ∀ i, ctxB i = false) (hcs : ∀ i, ctxS i = false) :
    ∀ fuel a lastErr tr, 0 < fuel →
      attemptLoop fails ctxB ctxS d fuel a lastErr tr =
        { status := .failed, attempts := a + fuel - 1,
          err := some (.runErr (a + fuel - 1)),
          trace := tr.reverse ++ failTraceFrom d a fuel } := by
  intro fuel
  induction fuel with
  | zero => intro a lastErr tr h; exact absurd h (by simp)
  | succ f ih =>
      intro a lastErr tr _
      rw [attemptLoop_succ, if_neg (by simp [hcb a]), if_neg (by simp [hf a])]
      cases f with
      | zero =>
          rw [if_pos rfl]
          simp [attemptLoop, failTraceFrom]
      | succ g =>
          rw [if_neg (Nat.succ_ne_zero g)]
          by_cases hd : 0 < d
          · rw [if_pos hd, if_neg (by simp [hcs a])]
            rw [ih (a + 1) (some (.runErr a)) (TaskEv.sleep :: TaskEv.attempt a :: tr)
              (Nat.succ_pos g)]
            have ha : a + 1 + (g + 1) - 1 = a + (g + 1 + 1) - 1 := by omega
            simp [failTraceFrom, hd, ha, List.append_assoc]
          · rw [if_neg hd]
            rw [ih (a + 1) (some (.runErr a)) (TaskEv.attempt a :: tr) (Nat.succ_pos g)]
            have ha : a + 1 + (g + 1) - 1 = a + (g + 1 + 1) - 1 := by omega
            simp [failTraceFrom, hd, ha, List.append_assoc]

theorem failTraceFrom_count_sleep (d : Nat) :
    ∀ fuel a, (failTraceFrom d a fuel).count TaskEv.sleep =
      if 0 < d then fuel - 1 else 0 := by
  intro fuel
  induction fuel with
  | zero => intro a; simp [failTraceFrom]
  | succ f ih =>
      intro a
      cases f with
      | zero => simp [failTraceFrom]
      | succ g =>
          by_cases hd : 0 < d <;>
            simp [failTraceFrom, hd, ih (a + 1), List.count_cons, List.count_append]

theorem failTraceFrom_getLast (d : Nat) :
    ∀ fuel a, 0 < fuel →
      (failTraceFrom d a fuel).getLast? = some (.attempt (a + fuel - 1)) := by
  intro fuel
  induction fuel with
  | zero => intro a h; exact absurd h (by simp)
  | succ f ih =>
      intro a _
      cases f with
      | zero => simp [failTraceFrom]
      | succ g =>
          have hrec := ih (a + 1) (Nat.succ_pos g)
          have hne : failTraceFrom d (a + 1) (g + 1) ≠ [] := by
            intro hcon
            rw [hcon] at hrec
            simp at hrec
          by_cases hd : 0 < d
          · rw [show failTraceFrom d a (g + 1 + 1) =
                TaskEv.attempt a :: ((if 0 < d then [TaskEv.sleep] else []) ++
                  failTraceFrom d (a + 1) (g + 1)) from rfl]
            rw [if_pos hd, List.singleton_append, List.getLast?_cons_cons]
            cases hcons : failTraceFrom d (a + 1) (g + 1) with
            | nil => exact absurd hcons hne
            | cons x xs =>
                rw [List.getLast?_cons_cons]
                rw [hcons] at hrec
                rw [hrec]
                refine congrArg _ (congrArg _ ?_)
                omega
          · rw [show failTraceFrom d a (g + 1 + 1) =
                TaskEv.attempt a :: ((if 0 < d then [TaskEv.sleep] else []) ++
                  failTraceFrom d (a + 1) (g + 1)) from rfl]
            rw [if_neg hd, List.nil_append]
            cases hcons : failTraceFrom d (a + 1) (g + 1) with
            | nil => exact absurd hcons hne
            | cons x xs =>
                rw [List.getLast?_cons_cons]
                rw [hcons] at hrec
                rw [hrec]
                refine congrArg _ (congrArg _ ?_)
                omega

theorem executeTask_status_terminal (e : TaskEnv) :
    (executeTask e).status = .success ∨ (executeTask e).status = .failed := by
  unfold executeTask
  by_cases hp : e.pre
  · simp [hp]
  · simp only [hp, if_false, Bool.false_eq_true]
    generalize e.maxRetries + 1 = fuel
    generalize (1 : Nat) = a
    generalize (none : Option TaskErr) = lastErr
    generalize ([] : List TaskEv) = tr
    induction fuel generalizing a lastErr tr with
    | zero => right; rfl
    | succ f ih =>
        rw [attemptLoop_succ]
        by_cases hcb : e.ctxBefore a
        · simp [hcb]
        · rw [if_neg (by simp [hcb])]
          by_cases hfa : e.fails a
          · rw [if_neg (by simp [hfa])]
            by_cases hf0 : f = 0
            · rw [if_pos hf0]
              exact ih _ _ _
            · rw [if_neg hf0]
              by_cases hd : 0 < e.retryDelay
              · rw [if_pos hd]
                by_cases hcs : e.ctxSleep a
                · simp [hcs]
                · rw [if_neg (by simp [hcs])]
                  exact ih _ _ _
              · rw [if_neg hd]
                exact ih _ _ _
          · rw [if_pos (by simp [hfa])]
            left; rfl

/-- C4: a task whose runner fails on every attempt (with the parent
context never cancelled) performs exactly `MaxRetries + 1` attempts, ends
`failed` with the error of the last attempt recorded, and its trace is the
attempts `1 .. MaxRetries + 1` with one `retry_delay` sleep between
consecutive attempts (when `RetryDelay > 0`) and none after the last:
the sleep count is `MaxRetries` and the last event is the final attempt.
In particular `MaxRetries = 0` gives exactly one attempt. -/
theorem executeTask_all_attempts_fail (e : TaskEnv)
    (hpre : e.pre = false) (hf : ∀ i, e.fails i = true)
    (hcb : ∀ i, e.ctxBefore i = false) (hcs : ∀ i, e.ctxSleep i = false) :
    (executeTask e).status = .failed ∧
    (executeTask e).attempts = e.maxRetries + 1 ∧
    (executeTask e).err = some (.runErr (e.maxRetries + 1)) ∧
    (executeTask e).trace = failTrace e.retryDelay (e.maxRetries + 1) ∧
    (executeTask e).trace.count TaskEv.sleep =
      (if 0 < e.retryDelay then e.maxRetries else 0) ∧
    (executeTask e).trace.getLast? = some (.attempt (e.maxRetries + 1)) := by
  have hrun : executeTask e =
      attemptLoop e.fails e.ctxBefore e.ctxSleep e.retryDelay (e.maxRetries + 1) 1 none [] := by
    unfold executeTask
    rw [if_neg (by simp [hpre])]
  rw [hrun, attemptLoop_always_fails e.fails e.ctxBefore e.ctxSleep e.retryDelay hf hcb hcs
    (e.maxRetries + 1) 1 none [] (Nat.succ_pos _)]
  have h1 : 1 + (e.maxRetries + 1) - 1 = e.maxRetries + 1 := by omega
  refine ⟨rfl, by simp [h1], by simp [h1], by simp [failTrace], ?_, ?_⟩
  · simp [failTraceFrom_count_sleep]
  · simp [failTraceFrom_getLast e.retryDelay (e.maxRetries + 1) 1 (Nat.succ_pos _), h1]

/-- Witness for C4: `max_retries = 2`, `retry_delay` positive, all three
attempts fail. -/
theorem executeTask_all_attempts_fail_witness :
    (executeTask ⟨false, fun _ => true, fun _ => false, fun _ => false, 2, 5⟩).status =
      .failed ∧
    (executeTask ⟨false, fun _ => true, fun _ => false, fun _ => false, 2, 5⟩).attempts = 3 ∧
    (executeTask ⟨false, fun _ => true, fun _ => false, fun _ => false, 2, 5⟩).err =
      some (.runErr 3) ∧
    (executeTask ⟨false, fun _ => true, fun _ => false, fun _ => false, 2, 5⟩).trace =
      failTrace 5 3 ∧
    (executeTask ⟨false, fun _ => true, fun _ => false, fun _ => false, 2, 5⟩).trace.count
      TaskEv.sleep = 2 ∧
    (executeTask ⟨false, fun _ => true, fun _ => false, fun _ => false, 2, 5⟩).trace.getLast? =
      some (.attempt 3) :=
  executeTask_all_attempts_fail ⟨false, fun _ => true, fun _ => false, fun _ => false, 2, 5⟩
    rfl (fun _ => rfl) (fun _ => rfl) (fun _ => rfl)

/-! ## load_data path containment (claim C6) -/

/-- C6: the `load_data` handler resolves `file` relative to the run's data
directory (`filepath.Abs (filepath.Join dataDir file)`), and whenever that
resolved path is neither the data directory itself nor has it as a prefix
bounded by the separator, the handler answers an error and the load step
is never reached; conversely every reached load uses exactly that resolved
path, which satisfies the containment condition. -/
theorem load_data_path_containment (store : Option Store) (dagName dataDir cwd : String)
    (params : List (String × String)) :
    (goHasPrefix (goAbs cwd (goJoin dataDir (getParam params "file")))
        (goAbs cwd dataDir ++ "/") = false →
      goAbs cwd (goJoin dataDir (getParam params "file")) ≠ goAbs cwd dataDir →
      ∃ msg, makeLoadDataHandler store dagName dataDir cwd params = .err msg) ∧
    (∀ a t s m c, makeLoadDataHandler store dagName dataDir cwd params = .loaded a t s m c →
      a = goAbs cwd (goJoin dataDir (getParam params "file")) ∧
      (goHasPrefix a (goAbs cwd dataDir ++ "/") = true ∨ a = goAbs cwd dataDir)) := by
  constructor
  · intro hpre hne
    simp only [makeLoadDataHandler]
    by_cases h1 : getParam params "file" = ""
    · exact ⟨_, by rw [if_pos h1]⟩
    rw [if_neg h1]
    by_cases h2 : getParam params "table" = ""
    · exact ⟨_, by rw [if_pos h2]⟩
    rw [if_neg h2]
    by_cases h3 : getParam params "connection" = ""
    · exact ⟨_, by rw [if_pos h3]⟩
    rw [if_neg h3]
    cases store with
    | none => exact ⟨_, rfl⟩
    | some st =>
        refine ⟨"file path " ++ goQuote (getParam params "file") ++
          " escapes data directory", ?_⟩
        simp only []
        rw [if_pos ⟨by simp [hpre], hne⟩]
  · intro a t s m c h
    simp only [makeLoadDataHandler] at h
    by_cases h1 : getParam params "file" = ""
    · rw [if_pos h1] at h; exact absurd h (by simp)
    rw [if_neg h1] at h
    by_cases h2 : getParam params "table" = ""
    · rw [if_pos h2] at h; exact absurd h (by simp)
    rw [if_neg h2] at h
    by_cases h3 : getParam params "connection" = ""
    · rw [if_pos h3] at h; exact absurd h (by simp)
    rw [if_neg h3] at h
    cases store with
    | none => exact absurd h (by simp)
    | some st =>
        simp only [] at h
        by_cases h4 :
          ¬ goHasPrefix (goAbs cwd (goJoin dataDir (getParam params "file")))
              (goAbs cwd dataDir ++ "/") = true ∧
            goAbs cwd (goJoin dataDir (getParam params "file")) ≠ goAbs cwd dataDir
        · rw [if_pos h4] at h; exact absurd h (by simp)
        · rw [if_neg h4] at h
          rw [not_and_or, not_not, not_ne_iff] at h4
          cases hres : Store.Resolve st dagName (getParam params "connection") with
          | error e => rw [hres] at h; exact absurd h (by simp)
          | ok connStr =>
              rw [hres] at h
              cases h
              exact ⟨rfl, h4⟩

/-- Witness for C6: `file = ../escape.txt` resolves outside the data
directory and is refused; `file = sub/ok.parquet` stays inside and reaches
the load with the resolved path. -/
theorem load_data_path_containment_witness :
    (∃ msg, makeLoadDataHandler (some [("global", [("conn", .plain "X")])]) "dag"
      "/w/data" "/w" [("file", "../escape.txt"), ("table", "t"), ("connection", "conn")] =
        .err msg) ∧
    ("/w/data/sub/ok.parquet" =
        goAbs "/w" (goJoin "/w/data" (getParam
          [("file", "sub/ok.parquet"), ("table", "t"), ("connection", "conn")] "file")) ∧
      (goHasPrefix "/w/data/sub/ok.parquet" (goAbs "/w" "/w/data" ++ "/") = true ∨
        ("/w/data/sub/ok.parquet" : String) = goAbs "/w" "/w/data")) :=
  ⟨(load_data_path_containment (some [("global", [("conn", .plain "X")])]) "dag"
      "/w/data" "/w" [("file", "../escape.txt"), ("table", "t"), ("connection", "conn")]).1
      (by decide) (by decide),
   (load_data_path_containment (some [("global", [("conn", .plain "X")])]) "dag"
      "/w/data" "/w" [("file", "sub/ok.parquet"), ("table", "t"), ("connection", "conn")]).2
      "/w/data/sub/ok.parquet" "t" "dbo" "append" "X" (by decide)⟩

/-! ## FTP-watch tracking lemmas (claim C8) -/

theorem trackGet_set_same (tr : Tracking) (n : String) (v : FileState) :
    trackGet (trackSet tr n v) n = some v := by
  induction tr with
  | nil => simp [trackSet, trackGet]
  | cons p rest ih =>
      by_cases h : p.1 = n
      · simp [trackSet, trackGet, h]
      · simp [trackSet, trackGet, h, ih]

theorem trackGet_set_other (tr : Tracking) (n m : String) (v : FileState) (h : m ≠ n) :
    trackGet (trackSet tr n v) m = trackGet tr m := by
  induction tr with
  | nil => simp [trackSet, trackGet, Ne.symm h]
  | cons p rest ih =>
      by_cases hp : p.1 = n
      · simp [trackSet, trackGet, hp, Ne.symm h]
      · by_cases hm : p.1 = m <;> simp [trackSet, trackGet, hp, hm, h, ih]

theorem trackSet_keys (tr : Tracking) (n : String) (v : FileState) :
    (trackSet tr n v).map Prod.fst =
      if n ∈ tr.map Prod.fst then tr.map Prod.fst else tr.map Prod.fst ++ [n] := by
  induction tr with
  | nil => simp [trackSet]
  | cons p rest ih =>
      by_cases h : p.1 = n
      · simp [trackSet, h]
      · simp only [trackSet, h, if_false, Bool.false_eq_true, List.map_cons, ih]
        by_cases hm : n ∈ rest.map Prod.fst
        · simp [hm, Ne.symm h]
        · simp [hm, Ne.symm h]

theorem trackSet_keys_nodup (tr : Tracking) (n : String) (v : FileState)
    (h : (tr.map Prod.fst).Nodup) : ((trackSet tr n v).map Prod.fst).Nodup := by
  rw [trackSet_keys]
  by_cases hm : n ∈ tr.map Prod.fst
  · simpa [hm] using h
  · simp only [hm, if_false, Bool.false_eq_true]
    exact List.Nodup.append h (List.nodup_singleton n)
      (by simpa [List.disjoint_singleton] using hm)

theorem trackGet_some_mem (tr : Tracking) (n : String) (v : FileState)
    (h : trackGet tr n = some v) : (n, v) ∈ tr := by
  induction tr with
  | nil => simp [trackGet] at h
  | cons p rest ih =>
      obtain ⟨p1, p2⟩ := p
      by_cases hp : p1 = n
      · subst hp
        simp only [trackGet, if_pos] at h
        cases h
        exact List.mem_cons_self _ _
      · have hp2 : ((p1, p2) : String × FileState).1 = n ↔ False := by simp [hp]
        simp only [trackGet, hp2, if_false, iff_false, Bool.false_eq_true] at h
        exact List.mem_cons_of_mem _ (ih h)

theorem mem_trackGet (tr : Tracking) (n : String) (v : FileState)
    (hnd : (tr.map Prod.fst).Nodup) (h : (n, v) ∈ tr) : trackGet tr n = some v := by
  induction tr with
  | nil => simp at h
  | cons p rest ih =>
      rcases List.mem_cons.mp h with hh | hh
      · cases hh
        simp [trackGet]
      · have hp : p.1 ≠ n := by
          intro hcon
          have hm : n ∈ rest.map Prod.fst := List.mem_map.mpr ⟨(n, v), hh, rfl⟩
          rw [List.map_cons, List.nodup_cons, hcon] at hnd
          exact hnd.1 hm
        simp only [trackGet, hp, if_false, Bool.false_eq_true]
        exact ih (by rw [List.map_cons, List.nodup_cons] at hnd; exact hnd.2) hh

theorem trackGet_filter_key (tr : Tracking) (g : String → Bool) (n : String) :
    trackGet (tr.filter (fun p => g p.1)) n =
      if g n then trackGet tr n else none := by
  induction tr with
  | nil => simp [trackGet]
  | cons p rest ih =>
      by_cases hg : g p.1
      · by_cases hp : p.1 = n
        · subst hp
          simp [List.filter_cons, hg, trackGet]
        · simp [List.filter_cons, hg, trackGet, hp, ih]
      · by_cases hp : p.1 = n
        · subst hp
          simp [List.filter_cons, hg, trackGet, ih]
        · simp [List.filter_cons, hg, trackGet, hp, ih]

theorem mem_FindStableFiles (tr : Tracking) (threshold now : Int) (n : String) :
    n ∈ FindStableFiles tr threshold now ↔
      ∃ s : FileState, (n, s) ∈ tr ∧ now - s.firstSeen ≥ threshold := by
  simp only [FindStableFiles, List.mem_map, List.mem_filter]
  constructor
  · rintro ⟨p, ⟨hp, hc⟩, rfl⟩
    exact ⟨p.2, hp, by simpa using hc⟩
  · rintro ⟨s, hs, hc⟩
    exact ⟨(n, s), ⟨hs, by simpa using hc⟩, rfl⟩

theorem updateTracking_cons (tr : Tracking) (f : String × Int)
    (rest : List (String × Int)) (now : Int) :
    updateTracking tr (f :: rest) now =
      updateTracking
        (match trackGet tr f.1 with
         | some prev => if prev.size ≠ f.2 then trackSet tr f.1 ⟨f.2, now⟩ else tr
         | none => trackSet tr f.1 ⟨f.2, now⟩) rest now := rfl

theorem trackGet_updateStep_other (tr : Tracking) (f : String × Int) (now : Int)
    (n : String) (h : n ≠ f.1) :
    trackGet
      (match trackGet tr f.1 with
       | some prev => if prev.size ≠ f.2 then trackSet tr f.1 ⟨f.2, now⟩ else tr
       | none => trackSet tr f.1 ⟨f.2, now⟩) n = trackGet tr n := by
  cases hq : trackGet tr f.1 with
  | none => simp [trackGet_set_other _ _ _ _ h]
  | some prev =>
      by_cases hsz : prev.size ≠ f.2 <;> simp [hsz, trackGet_set_other _ _ _ _ h]

theorem updateTracking_get_invisible (files : List (String × Int)) :
    ∀ (tr : Tracking) (now : Int) (n : String), ¬ n ∈ files.map Prod.fst →
      trackGet (updateTracking tr files now) n = trackGet tr n := by
  induction files with
  | nil => intro tr now n _; rfl
  | cons f rest ih =>
      intro tr now n hn
      have hne : n ≠ f.1 := by
        intro hcon
        exact hn (by simp [hcon])
      rw [updateTracking_cons, ih _ now n (fun hc => hn (List.mem_cons_of_mem _ hc)),
        trackGet_updateStep_other tr f now n hne]

theorem updateTracking_get_visible (files : List (String × Int)) :
    ∀ (tr : Tracking) (now : Int) (n : String) (sz : Int),
      (files.map Prod.fst).Nodup → (n, sz) ∈ files →
      trackGet (updateTracking tr files now) n =
        (match trackGet tr n with
         | some prev => if prev.size ≠ sz then some ⟨sz, now⟩ else some prev
         | none => some ⟨sz, now⟩) := by
  induction files with
  | nil => intro tr now n sz _ h; simp at h
  | cons f rest ih =>
      intro tr now n sz hnd hmem
      rw [List.map_cons, List.nodup_cons] at hnd
      rcases List.mem_cons.mp hmem with hh | hh
      · have hn1 : f.1 = n := by rw [← hh]
        have hsz : f.2 = sz := by rw [← hh]
        rw [updateTracking_cons, hn1, hsz,
          updateTracking_get_invisible rest _ now n (hn1 ▸ hnd.1)]
        cases hq : trackGet tr n with
        | none => simp [hq, trackGet_set_same]
        | some prev =>
            by_cases hs : prev.size ≠ sz <;> simp [hs, hq, trackGet_set_same]
      · have hne : n ≠ f.1 := by
          intro hcon
          have hm : n ∈ rest.map Prod.fst := List.mem_map.mpr ⟨(n, sz), hh, rfl⟩
          rw [hcon] at hm
          exact hnd.1 hm
        rw [updateTracking_cons, ih _ now n sz hnd.2 hh,
          trackGet_updateStep_other tr f now n hne]

theorem filter_keys_nodup (tr : Tracking) (q : String × FileState → Bool)
    (h : (tr.map Prod.fst).Nodup) : ((tr.filter q).map Prod.fst).Nodup :=
  h.sublist ((tr.filter_sublist).map Prod.fst)

theorem updateTracking_keys_nodup (files : List (String × Int)) :
    ∀ (tr : Tracking) (now : Int), (tr.map Prod.fst).Nodup →
      ((updateTracking tr files now).map Prod.fst).Nodup := by
  induction files with
  | nil => intro tr now h; exact h
  | cons f rest ih =>
      intro tr now h
      rw [updateTracking_cons]
      refine ih _ now ?_
      cases hq : trackGet tr f.1 with
      | none => exact trackSet_keys_nodup tr f.1 _ h
      | some prev =>
          by_cases hs : prev.size ≠ f.2
          · simpa [hs] using trackSet_keys_nodup tr f.1 ⟨f.2, now⟩ h
          · simpa [hs] using h

theorem FindStableFiles_nodup (tr : Tracking) (threshold now : Int)
    (h : (tr.map Prod.fst).Nodup) : (FindStableFiles tr threshold now).Nodup := by
  have hs : FindStableFiles tr threshold now =
      (tr.filter (fun p => now - p.2.firstSeen ≥ threshold)).map Prod.fst := by
    simp [FindStableFiles]
  rw [hs]
  exact filter_keys_nodup tr _ h

/-- C8 counterexample: with stability threshold 2, a file visible with a
constant size at ticks `0..5` is emitted at the tick-2 poll, re-tracked as
new on the next poll, and emitted a second time at the tick-5 poll — so
the claim that exactly one event fires for it and it is never re-emitted
on subsequent polls fails when the file stays visible after emission. -/
theorem filewatch_reemission_counterexample :
    (pollRun "d" 2 [(0, [("f", 100)]), (1, [("f", 100)]), (2, [("f", 100)]),
        (3, [("f", 100)]), (4, [("f", 100)]), (5, [("f", 100)])] []).2 =
      [none, none, some { dagName := "d", source := "ftp_watch", files := ["f"] },
        none, none, some { dagName := "d", source := "ftp_watch", files := ["f"] }] := by
  decide

/-- C8 amended, per poll step (`FTPWatchTrigger.poll`), with unique keys in
the listing and the tracking state and a positive stability threshold:

1. a currently visible file that is new or whose size changed has its
   `first_seen` reset to the current tick and is not emitted at this poll
   (so a file that grows on every poll is never emitted);
2. every emitted filename was visible in this poll's listing, and is
   removed from the tracking state returned with the event;
3. a tracked file that is still visible at its tracked size and whose size
   has been unchanged for at least the threshold is emitted in this poll's
   single event (each poll emits at most one event, containing each stable
   file once) and removed from tracking;
4. key uniqueness of the tracking state is preserved, and the emitted file
   list has no duplicates.

A file that is no longer visible after its emission (the dispatcher
archives emitted files) is therefore never re-emitted; the counterexample
shows the unamended claim fails when the file stays visible. -/
theorem filewatch_poll_step (dagName : String) (tr : Tracking)
    (files : List (String × Int)) (now threshold : Int) :
    ((files.map Prod.fst).Nodup → (tr.map Prod.fst).Nodup → 0 < threshold →
      ∀ n sz, (n, sz) ∈ files →
      (∀ prev, trackGet tr n = some prev → prev.size ≠ sz) →
      trackGet (pollStep dagName tr files now threshold).1 n = some ⟨sz, now⟩ ∧
      (∀ ev, (pollStep dagName tr files now threshold).2 = some ev → ¬ n ∈ ev.files)) ∧
    (∀ ev n, (pollStep dagName tr files now threshold).2 = some ev → n ∈ ev.files →
      n ∈ files.map Prod.fst ∧
      trackGet (pollStep dagName tr files now threshold).1 n = none) ∧
    ((files.map Prod.fst).Nodup → ∀ n s, trackGet tr n = some s → (n, s.size) ∈ files →
      now - s.firstSeen ≥ threshold →
      ∃ ev, (pollStep dagName tr files now threshold).2 = some ev ∧ n ∈ ev.files ∧
        trackGet (pollStep dagName tr files now threshold).1 n = none) ∧
    ((tr.map Prod.fst).Nodup →
      ((pollStep dagName tr files now threshold).1.map Prod.fst).Nodup ∧
      ∀ ev, (pollStep dagName tr files now threshold).2 = some ev → ev.files.Nodup) := by
  have h21 : ∀ n, trackGet (removeMissing (updateTracking tr files now) files) n =
      if files.any (fun f => f.1 = n) then trackGet (updateTracking tr files now) n
      else none := by
    intro n
    exact trackGet_filter_key (updateTracking tr files now)
      (fun x => files.any (fun f => f.1 = x)) n
  refine ⟨?_, ?_, ?_, ?_⟩
  · intro hfn htn hth n sz hmem hchg
    have hvis : files.any (fun f => f.1 = n) = true := by
      simp only [List.any_eq_true]
      exact ⟨(n, sz), hmem, by simp⟩
    have h1 : trackGet (updateTracking tr files now) n = some ⟨sz, now⟩ := by
      rw [updateTracking_get_visible files tr now n sz hfn hmem]
      cases hq : trackGet tr n with
      | none => rfl
      | some prev => simp [hchg prev hq]
    have h2 : trackGet (removeMissing (updateTracking tr files now) files) n =
        some ⟨sz, now⟩ := by rw [h21 n, if_pos hvis, h1]
    have htn2 : ((removeMissing (updateTracking tr files now) files).map Prod.fst).Nodup :=
      filter_keys_nodup _ _ (updateTracking_keys_nodup files tr now htn)
    have hnst : ¬ n ∈ FindStableFiles
        (removeMissing (updateTracking tr files now) files) threshold now := by
      intro hst
      rcases (mem_FindStableFiles _ threshold now n).mp hst with ⟨s, hsmem, hscond⟩
      have := mem_trackGet _ n s htn2 hsmem
      rw [h2] at this
      cases this
      simp only at hscond
      omega
    constructor
    · unfold pollStep
      by_cases he : (FindStableFiles (removeMissing (updateTracking tr files now) files)
          threshold now).isEmpty
      · simpa [he] using h2
      · simp only [he, if_false, Bool.false_eq_true]
        rw [trackGet_filter_key _ (fun x => decide (¬ x ∈ FindStableFiles
          (removeMissing (updateTracking tr files now) files) threshold now)) n]
        simpa [hnst] using h2
    · intro ev hev hnev
      unfold pollStep at hev
      by_cases he : (FindStableFiles (removeMissing (updateTracking tr files now) files)
          threshold now).isEmpty
      · simp [he] at hev
      · simp only [he, if_false, Bool.false_eq_true] at hev
        have hevv := Option.some.inj hev
        subst hevv
        exact hnst hnev
  · intro ev n hev hnev
    unfold pollStep at hev ⊢
    by_cases he : (FindStableFiles (removeMissing (updateTracking tr files now) files)
        threshold now).isEmpty
    · simp [he] at hev
    · simp only [he, if_false, Bool.false_eq_true] at hev ⊢
      have hevv := Option.some.inj hev
      subst hevv
      have hst : n ∈ FindStableFiles (removeMissing (updateTracking tr files now) files)
          threshold now := hnev
      rcases (mem_FindStableFiles _ threshold now n).mp hst with ⟨s, hsmem, _⟩
      have hfilt := List.mem_filter.mp hsmem
      constructor
      · rcases List.any_eq_true.mp hfilt.2 with ⟨f, hf, hfn⟩
        exact List.mem_map.mpr ⟨f, hf, by simpa using hfn⟩
      · rw [trackGet_filter_key _ (fun x => decide (¬ x ∈ FindStableFiles
          (removeMissing (updateTracking tr files now) files) threshold now)) n]
        simp [hst]
  · intro hfn n s hget hmem hcond
    have h1 : trackGet (updateTracking tr files now) n = some s := by
      rw [updateTracking_get_visible files tr now n s.size hfn hmem, hget]
      simp
    have hvis : files.any (fun f => f.1 = n) = true := by
      simp only [List.any_eq_true]
      exact ⟨(n, s.size), hmem, by simp⟩
    have h2 : trackGet (removeMissing (updateTracking tr files now) files) n = some s := by
      rw [h21 n, if_pos hvis, h1]
    have hst : n ∈ FindStableFiles (removeMissing (updateTracking tr files now) files)
        threshold now := by
      refine (mem_FindStableFiles _ threshold now n).mpr ⟨s, trackGet_some_mem _ n s h2, hcond⟩
    have he : (FindStableFiles (removeMissing (updateTracking tr files now) files)
        threshold now).isEmpty = false := by
      cases hc : (FindStableFiles (removeMissing (updateTracking tr files now) files)
          threshold now) with
      | nil => rw [hc] at hst; simp at hst
      | cons x xs => rfl
    refine ⟨⟨dagName, "ftp_watch",
      FindStableFiles (removeMissing (updateTracking tr files now) files) threshold now⟩,
      ?_, hst, ?_⟩
    · unfold pollStep
      simp [he]
    · unfold pollStep
      simp only [he, if_false, Bool.false_eq_true]
      rw [trackGet_filter_key _ (fun x => decide (¬ x ∈ FindStableFiles
        (removeMissing (updateTracking tr files now) files) threshold now)) n]
      simp [hst]
  · intro htn
    have htn2 : ((removeMissing (updateTracking tr files now) files).map Prod.fst).Nodup :=
      filter_keys_nodup _ _ (updateTracking_keys_nodup files tr now htn)
    constructor
    · unfold pollStep
      by_cases he : (FindStableFiles (removeMissing (updateTracking tr files now) files)
          threshold now).isEmpty
      · simpa [he] using htn2
      · simp only [he, if_false, Bool.false_eq_true]
        exact filter_keys_nodup _ _ htn2
    · intro ev hev
      unfold pollStep at hev
      by_cases he : (FindStableFiles (removeMissing (updateTracking tr files now) files)
          threshold now).isEmpty
      · simp [he] at hev
      · simp only [he, if_false, Bool.false_eq_true] at hev
        have hevv := Option.some.inj hev
        subst hevv
        exact FindStableFiles_nodup _ threshold now htn2

/-- Witness for C8 (amended): a first-seen file is tracked but not
emitted; once stable it is emitted and dropped from tracking. -/
theorem filewatch_poll_step_witness :
    (trackGet (pollStep "d" [] [("f", 100)] 0 2).1 "f" = some ⟨100, 0⟩ ∧
      (∀ ev, (pollStep "d" [] [("f", 100)] 0 2).2 = some ev → ¬ "f" ∈ ev.files)) ∧
    (∃ ev, (pollStep "d" [("f", ⟨100, 0⟩)] [("f", 100)] 3 2).2 = some ev ∧
      "f" ∈ ev.files ∧
      trackGet (pollStep "d" [("f", ⟨100, 0⟩)] [("f", 100)] 3 2).1 "f" = none) := by
  constructor
  · exact (filewatch_poll_step "d" [] [("f", 100)] 0 2).1 (by decide) (by decide) (by decide)
      "f" 100 (by decide) (fun prev h => by simp [trackGet] at h)
  · exact (filewatch_poll_step "d" [("f", ⟨100, 0⟩)] [("f", 100)] 3 2).2.2.1 (by decide)
      "f" ⟨100, 0⟩ (by decide) (by decide) (by decide)

/-! ## Kahn loop counting lemmas (claims C3, C5, and the executor) -/

theorem length_filter_not_mem (D : List String) :
    ∀ (r : List String), r.Nodup →
      ((D.filter (fun d => ¬ d ∈ r)).length : Int) =
        (D.length : Int) - ((r.map (fun n => (D.count n : Int))).sum) := by
  intro r
  induction r generalizing D with
  | nil => intro _; simp
  | cons n r2 ih =>
      intro hnd
      rw [List.nodup_cons] at hnd
      have hsplit : D.filter (fun d => ¬ d ∈ (n :: r2)) =
          (D.filter (fun d => ¬ d = n)).filter (fun d => ¬ d ∈ r2) := by
        rw [List.filter_filter]
        refine List.filter_congr ?_
        intro d _
        simp only [List.mem_cons, decide_not, Bool.not_eq_true]
        by_cases h1 : d = n <;> by_cases h2 : d ∈ r2 <;> simp [h1, h2]
      have hlen : ∀ (E : List String), ((E.filter (fun d => ¬ d = n)).length : Int) =
          (E.length : Int) - (E.count n : Int) := by
        intro E
        induction E with
        | nil => simp
        | cons e E ihe =>
            by_cases he : e = n
            · subst he
              simp only [List.filter_cons, List.count_cons]
              simp
              simp only [decide_not] at ihe
              omega
            · simp only [List.filter_cons, List.count_cons]
              simp [he, Ne.symm he]
              simp only [decide_not] at ihe
              omega
      have hcnt : ∀ m ∈ r2, ((D.filter (fun d => ¬ d = n)).count m : Int) =
          (D.count m : Int) := by
        intro m hm
        have hmn : m ≠ n := fun hcon => hnd.1 (hcon ▸ hm)
        rw [List.count_filter (by simpa using hmn)]
      rw [hsplit, ih _ hnd.2, hlen D]
      have hmap : (r2.map (fun m => ((D.filter (fun d => ¬ d = n)).count m : Int))).sum =
          (r2.map (fun m => (D.count m : Int))).sum := by
        refine congrArg _ (List.map_congr_left ?_)
        intro m hm
        exact hcnt m hm
      rw [hmap]
      simp only [List.map_cons, List.sum_cons]
      ring

theorem inDegree_fold_untouched (rest : List TaskInstance) :
    ∀ (m : String → Int) (x : String), ¬ x ∈ rest.map TaskInstance.name →
      (rest.foldl (fun m t => fun y => if y = t.name then
        (t.dependsOn.length : Int) else m y) m) x = m x := by
  induction rest with
  | nil => intro m x _; rfl
  | cons s srest ih =>
      intro m x hx
      have hxs : x ≠ s.name := fun hcon => hx (by simp [hcon])
      rw [List.foldl_cons, ih _ x (fun hc => hx (List.mem_cons_of_mem _ hc))]
      simp [hxs]

theorem buildInDegree_apply (tasks : List TaskInstance)
    (hnd : (tasks.map TaskInstance.name).Nodup) :
    ∀ u ∈ tasks, buildInDegree tasks u.name = (u.dependsOn.length : Int) := by
  have hgen : ∀ (ts : List TaskInstance) (m : String → Int),
      (ts.map TaskInstance.name).Nodup →
      ∀ u ∈ ts, (ts.foldl (fun m t => fun x => if x = t.name then
        (t.dependsOn.length : Int) else m x) m) u.name = (u.dependsOn.length : Int) := by
    intro ts
    induction ts with
    | nil => intro m _ u hu; simp at hu
    | cons t rest ih =>
        intro m hnd2 u hu
        rw [List.map_cons, List.nodup_cons] at hnd2
        rcases List.mem_cons.mp hu with hh | hh
        · subst hh
          rw [List.foldl_cons, inDegree_fold_untouched rest _ u.name hnd2.1]
          simp
        · rw [List.foldl_cons]
          exact ih _ hnd2.2 u hh
  intro u hu
  exact hgen tasks _ hnd u hu

theorem addDependent_fold (deps : List String) :
    ∀ (m : String → List String) (tn x : String),
      (deps.foldl (fun m2 dep => addDependent m2 dep tn) m) x =
        m x ++ List.replicate (deps.count x) tn := by
  induction deps with
  | nil => intro m tn x; simp
  | cons dep rest ih =>
      intro m tn x
      rw [List.foldl_cons, ih]
      by_cases hx : x = dep
      · subst hx
        simp [addDependent, List.count_cons, List.append_assoc]
        rw [← List.replicate_succ, List.replicate_succ']
      · have hx2 : (x == dep) = false := by simpa using hx
        simp [addDependent, hx, List.count_cons, hx2]

theorem buildDependents_apply (tasks : List TaskInstance) :
    ∀ (d : String), buildDependents tasks d =
      (tasks.map (fun t => List.replicate (t.dependsOn.count d) t.name)).flatten := by
  have hgen : ∀ (ts : List TaskInstance) (m : String → List String) (d : String),
      (ts.foldl (fun m t => t.dependsOn.foldl
        (fun m2 dep => addDependent m2 dep t.name) m) m) d =
      m d ++ (ts.map (fun t => List.replicate (t.dependsOn.count d) t.name)).flatten := by
    intro ts
    induction ts with
    | nil => intro m d; simp
    | cons t rest ih =>
        intro m d
        rw [List.foldl_cons, ih, addDependent_fold]
        simp [List.append_assoc]
  intro d
  exact hgen tasks _ d

theorem count_buildDependents (tasks : List TaskInstance)
    (hnd : (tasks.map TaskInstance.name).Nodup) (u : TaskInstance) (hu : u ∈ tasks)
    (d : String) :
    ((buildDependents tasks) d).count u.name = u.dependsOn.count d := by
  rw [buildDependents_apply]
  induction tasks with
  | nil => simp at hu
  | cons t rest ih =>
      rw [List.map_cons, List.nodup_cons] at hnd
      rcases List.mem_cons.mp hu with hh | hh
      · subst hh
        have hzero : ((rest.map (fun t =>
            List.replicate (t.dependsOn.count d) t.name)).flatten).count u.name = 0 := by
          rw [List.count_eq_zero]
          intro hmem
          rcases List.mem_flatten.mp hmem with ⟨l, hl, hml⟩
          rcases List.mem_map.mp hl with ⟨s, hs, rfl⟩
          have := List.eq_of_mem_replicate hml
          exact hnd.1 (this ▸ List.mem_map.mpr ⟨s, hs, rfl⟩)
        simp [List.count_append, hzero]
      · have hne : t.name ≠ u.name := by
          intro hcon
          exact hnd.1 (hcon ▸ List.mem_map.mpr ⟨u, hh, rfl⟩)
        have hz : (List.replicate (t.dependsOn.count d) t.name).count u.name = 0 := by
          rw [List.count_eq_zero]
          intro hmem
          exact hne (List.eq_of_mem_replicate hmem).symm
        simp only [List.map_cons, List.flatten_cons, List.count_append, hz,
          Nat.zero_add]
        exact ih hnd.2 hh

theorem decList_apply (l : List String) :
    ∀ (f : String → Int) (x : String), decList f l x = f x - (l.count x : Int) := by
  induction l with
  | nil => intro f x; simp [decList]
  | cons n rest ih =>
      intro f x
      rw [decList, ih]
      by_cases hx : x = n
      · subst hx
        simp [decAt, List.count_cons]
        ring
      · have hx2 : (x == n) = false := by simpa using hx
        simp [decAt, hx, List.count_cons, hx2]

theorem foldl_decList_apply (level : List TaskInstance) :
    ∀ (dep : String → List String) (f : String → Int) (x : String),
      (level.foldl (fun f t => decList f (dep t.name)) f) x =
        f x - ((level.map (fun t => ((dep t.name).count x : Int))).sum) := by
  induction level with
  | nil => intro dep f x; simp
  | cons t rest ih =>
      intro dep f x
      rw [List.foldl_cons, ih, decList_apply]
      simp only [List.map_cons, List.sum_cons]
      ring

theorem resolveLevel_fst (dependents : String → List String) (level : List TaskInstance) :
    ∀ (r : List String) (f : String → Int),
      (resolveLevel dependents (r, f) level).1 =
        level.foldl (fun r t => if t.name ∈ r then r else t.name :: r) r := by
  induction level with
  | nil => intro r f; rfl
  | cons t rest ih =>
      intro r f
      simp only [resolveLevel, List.foldl_cons] at *
      exact ih _ _

theorem resolveLevel_snd (dependents : String → List String) (level : List TaskInstance) :
    ∀ (r : List String) (f : String → Int),
      (resolveLevel dependents (r, f) level).2 =
        level.foldl (fun f t => decList f (dependents t.name)) f := by
  induction level with
  | nil => intro r f; rfl
  | cons t rest ih =>
      intro r f
      simp only [resolveLevel, List.foldl_cons] at *
      exact ih _ _

theorem insertFold_mem (level : List TaskInstance) :
    ∀ (r : List String) (x : String),
      x ∈ level.foldl (fun r t => if t.name ∈ r then r else t.name :: r) r ↔
        x ∈ r ∨ x ∈ level.map TaskInstance.name := by
  induction level with
  | nil => intro r x; simp
  | cons t rest ih =>
      intro r x
      rw [List.foldl_cons]
      by_cases ht : t.name ∈ r
      · rw [if_pos ht, ih]
        simp only [List.map_cons, List.mem_cons]
        constructor
        · rintro (h | h)
          · exact Or.inl h
          · exact Or.inr (Or.inr h)
        · rintro (h | h | h)
          · exact Or.inl h
          · exact Or.inl (h ▸ ht)
          · exact Or.inr h
      · rw [if_neg ht, ih]
        simp only [List.map_cons, List.mem_cons]
        constructor
        · rintro ((h | h) | h)
          · exact Or.inr (Or.inl h)
          · exact Or.inl h
          · exact Or.inr (Or.inr h)
        · rintro (h | h | h)
          · exact Or.inl (Or.inr h)
          · exact Or.inl (Or.inl h)
          · exact Or.inr h

theorem insertFold_nodup (level : List TaskInstance) :
    ∀ (r : List String), r.Nodup →
      (level.foldl (fun r t => if t.name ∈ r then r else t.name :: r) r).Nodup := by
  induction level with
  | nil => intro r h; exact h
  | cons t rest ih =>
      intro r h
      rw [List.foldl_cons]
      by_cases ht : t.name ∈ r
      · rw [if_pos ht]; exact ih _ h
      · rw [if_neg ht]
        exact ih _ (List.nodup_cons.mpr ⟨ht, h⟩)

theorem insertFold_perm (level : List TaskInstance) :
    ∀ (r : List String), (∀ t ∈ level, ¬ t.name ∈ r) →
      (level.map TaskInstance.name).Nodup →
      (level.foldl (fun r t => if t.name ∈ r then r else t.name :: r) r).Perm
        (level.map TaskInstance.name ++ r) := by
  induction level with
  | nil => intro r _ _; simp
  | cons t rest ih =>
      intro r hnew hnd
      rw [List.map_cons, List.nodup_cons] at hnd
      rw [List.foldl_cons, if_neg (hnew t (List.mem_cons_self t rest))]
      have hnew2 : ∀ s ∈ rest, ¬ s.name ∈ (t.name :: r) := by
        intro s hs
        rw [List.mem_cons]
        rintro (h | h)
        · exact hnd.1 (h ▸ List.mem_map.mpr ⟨s, hs, rfl⟩)
        · exact hnew s (List.mem_cons_of_mem _ hs) h
      refine (ih (t.name :: r) hnew2 hnd.2).trans ?_
      rw [List.map_cons]
      exact List.perm_middle

theorem insertFold_length_le (level : List TaskInstance) :
    ∀ (r : List String),
      r.length ≤ (level.foldl (fun r t => if t.name ∈ r then r else t.name :: r) r).length := by
  induction level with
  | nil => intro r; exact Nat.le_refl _
  | cons t rest ih =>
      intro r
      rw [List.foldl_cons]
      by_cases ht : t.name ∈ r
      · rw [if_pos ht]; exact ih r
      · rw [if_neg ht]
        exact Nat.le_trans (Nat.le_succ r.length) (ih (t.name :: r))

theorem insertFold_length_lt (level : List TaskInstance) :
    ∀ (r : List String) (t : TaskInstance), t ∈ level → ¬ t.name ∈ r →
      r.length < (level.foldl (fun r t => if t.name ∈ r then r else t.name :: r) r).length := by
  induction level with
  | nil => intro r t h _; simp at h
  | cons s rest ih =>
      intro r t ht hnr
      rw [List.foldl_cons]
      rcases List.mem_cons.mp ht with hh | hh
      · subst hh
        rw [if_neg hnr]
        exact Nat.lt_of_lt_of_le (Nat.lt_succ_self r.length)
          (insertFold_length_le rest (t.name :: r))
      · by_cases hs : s.name ∈ r
        · rw [if_pos hs]
          exact ih r t hh hnr
        · rw [if_neg hs]
          by_cases hts : t.name ∈ (s.name :: r)
          · exact Nat.lt_of_lt_of_le (Nat.lt_succ_self r.length)
              (insertFold_length_le rest (s.name :: r))
          · exact Nat.lt_trans (Nat.lt_succ_self r.length) (ih (s.name :: r) t hh hts)

theorem flatten_reverse_perm {α : Type} (L : List (List α)) :
    (L.reverse.flatten).Perm L.flatten := by
  induction L with
  | nil => simp
  | cons l L ih =>
      rw [List.reverse_cons, List.flatten_append, List.flatten_cons]
      have h1 : (L.reverse.flatten ++ [l].flatten).Perm (L.flatten ++ [l].flatten) :=
        List.Perm.append_right _ ih
      have h2 : L.flatten ++ [l].flatten = L.flatten ++ l := by simp
      rw [h2] at h1
      exact h1.trans List.perm_append_comm

theorem nodup_length_le (l1 l2 : List String) (h1 : l1.Nodup)
    (hsub : ∀ x ∈ l1, x ∈ l2) : l1.length ≤ l2.length := by
  have hc1 : l1.toFinset.card = l1.length := List.toFinset_card_of_nodup h1
  have hc2 : l2.toFinset.card ≤ l2.length := List.toFinset_card_le l2
  have hsub2 : l1.toFinset ⊆ l2.toFinset := by
    intro x hx
    rw [List.mem_toFinset] at hx ⊢
    exact hsub x hx
  have := Finset.card_le_card hsub2
  omega

theorem nodup_subset_full (names resolved : List String) (hr : resolved.Nodup)
    (hsub : ∀ n ∈ resolved, n ∈ names) (hlen : names.length ≤ resolved.length) :
    ∀ n ∈ names, n ∈ resolved := by
  have hc1 : resolved.toFinset.card = resolved.length := List.toFinset_card_of_nodup hr
  have hsub2 : resolved.toFinset ⊆ names.toFinset := by
    intro x hx
    rw [List.mem_toFinset] at hx ⊢
    exact hsub x hx
  have hc2 : names.toFinset.card ≤ names.length := List.toFinset_card_le names
  have heq : names.toFinset = resolved.toFinset := by
    refine (Finset.eq_of_subset_of_card_le hsub2 ?_).symm
    omega
  intro n hn
  have : n ∈ names.toFinset := List.mem_toFinset.mpr hn
  rw [heq, List.mem_toFinset] at this
  exact this

theorem levelsOrdered_append (L : List TaskInstance) :
    ∀ (ls : List (List TaskInstance)) (prior : List String),
      LevelsOrdered ls prior →
      (∀ t ∈ L, ∀ d ∈ t.dependsOn, d ∈ prior ++ (ls.flatten).map TaskInstance.name) →
      LevelsOrdered (ls ++ [L]) prior := by
  intro ls
  induction ls with
  | nil =>
      intro prior _ hL
      refine ⟨?_, trivial⟩
      intro t ht d hd
      simpa using hL t ht d hd
  | cons lvl rest ih =>
      intro prior hord hL
      obtain ⟨h1, h2⟩ := hord
      refine ⟨h1, ih _ h2 ?_⟩
      intro t ht d hd
      have := hL t ht d hd
      simp only [List.flatten_cons, List.map_append, List.mem_append] at this ⊢
      tauto

theorem deps_resolved_of_deg_zero (resolved : List String) (hres : resolved.Nodup)
    (deps : List String)
    (h : (deps.length : Int) - ((resolved.map (fun n => (deps.count n : Int))).sum) = 0) :
    ∀ d ∈ deps, d ∈ resolved := by
  have hcl := length_filter_not_mem deps resolved hres
  have hlen : ((deps.filter (fun d => ¬ d ∈ resolved)).length : Int) = 0 := by omega
  have hnil : deps.filter (fun d => ¬ d ∈ resolved) = [] :=
    List.length_eq_zero.mp (by exact_mod_cast hlen)
  intro d hd
  by_contra hcon
  have hmem : d ∈ deps.filter (fun d => ¬ d ∈ resolved) :=
    List.mem_filter.mpr ⟨hd, by simpa using hcon⟩
  rw [hnil] at hmem
  simp at hmem

theorem KahnInv_init (tasks : List TaskInstance)
    (hnd : (tasks.map TaskInstance.name).Nodup) :
    KahnInv tasks [] (buildInDegree tasks) [] := by
  refine ⟨List.nodup_nil, ?_, ?_, ?_, ?_, ?_, List.nodup_nil, trivial⟩
  · intro n hn; simp at hn
  · intro u hu
    rw [buildInDegree_apply tasks hnd u hu]
    simp
  · intro t ht; simp at ht
  · intro t ht; simp at ht
  · intro t _ ht; simp at ht

theorem KahnInv_step (tasks : List TaskInstance)
    (hnd : (tasks.map TaskInstance.name).Nodup)
    (resolved : List String) (inDeg : String → Int) (acc : List (List TaskInstance))
    (inv : KahnInv tasks resolved inDeg acc) :
    KahnInv tasks
      (resolveLevel (buildDependents tasks) (resolved, inDeg)
        (tasks.filter (fun t => ¬ t.name ∈ resolved ∧ inDeg t.name = 0))).1
      (resolveLevel (buildDependents tasks) (resolved, inDeg)
        (tasks.filter (fun t => ¬ t.name ∈ resolved ∧ inDeg t.name = 0))).2
      ((tasks.filter (fun t => ¬ t.name ∈ resolved ∧ inDeg t.name = 0)) :: acc) := by
  have hlvl : ∀ t, t ∈ (tasks.filter (fun t => ¬ t.name ∈ resolved ∧ inDeg t.name = 0)) →
      t ∈ tasks ∧ ¬ t.name ∈ resolved ∧ inDeg t.name = 0 := by
    intro t ht
    have := List.mem_filter.mp ht
    refine ⟨this.1, ?_⟩
    have h2 := this.2
    simp only [decide_eq_true_eq] at h2
    exact h2
  have hlvlnd : ((tasks.filter (fun t => ¬ t.name ∈ resolved ∧ inDeg t.name = 0)).map
      TaskInstance.name).Nodup :=
    hnd.sublist ((tasks.filter_sublist).map TaskInstance.name)
  have hnew : ∀ t ∈ (tasks.filter (fun t => ¬ t.name ∈ resolved ∧ inDeg t.name = 0)),
      ¬ t.name ∈ resolved := fun t ht => (hlvl t ht).2.1
  rw [resolveLevel_fst, resolveLevel_snd]
  set level := tasks.filter (fun t => ¬ t.name ∈ resolved ∧ inDeg t.name = 0) with hlevel
  have hperm := insertFold_perm level resolved hnew hlvlnd
  have hmemr := insertFold_mem level resolved
  refine ⟨insertFold_nodup level resolved inv.rnodup, ?_, ?_, ?_, ?_, ?_, ?_, ?_⟩
  · intro n hn
    rcases (hmemr n).mp hn with h | h
    · exact inv.rsub n h
    · rcases List.mem_map.mp h with ⟨t, ht, rfl⟩
      exact List.mem_map.mpr ⟨t, (hlvl t ht).1, rfl⟩
  · intro u hu
    rw [foldl_decList_apply level (buildDependents tasks) inDeg u.name, inv.deg u hu]
    have hmapc : level.map (fun t => (((buildDependents tasks) t.name).count u.name : Int)) =
        level.map (fun t => ((u.dependsOn.count t.name : Int))) := by
      refine List.map_congr_left ?_
      intro t ht
      rw [count_buildDependents tasks hnd u hu t.name]
    rw [hmapc]
    have hsum : ((level.foldl (fun r t => if t.name ∈ r then r else t.name :: r)
        resolved).map (fun n => (u.dependsOn.count n : Int))).sum =
        ((level.map TaskInstance.name ++ resolved).map
          (fun n => (u.dependsOn.count n : Int))).sum :=
      List.Perm.sum_eq (List.Perm.map _ hperm)
    rw [hsum, List.map_append, List.sum_append, List.map_map]
    have hcomp : (fun n => (u.dependsOn.count n : Int)) ∘ TaskInstance.name =
        fun t => ((u.dependsOn.count t.name : Int)) := rfl
    rw [hcomp]
    ring
  · intro t ht
    rw [List.flatten_cons] at ht
    rcases List.mem_append.mp ht with h | h
    · exact (hlvl t h).1
    · exact inv.accsub t h
  · intro t ht
    rw [List.flatten_cons] at ht
    rcases List.mem_append.mp ht with h | h
    · exact (hmemr t.name).mpr (Or.inr (List.mem_map.mpr ⟨t, h, rfl⟩))
    · exact (hmemr t.name).mpr (Or.inl (inv.accres t h))
  · intro t ht hres
    rw [List.flatten_cons, List.mem_append]
    rcases (hmemr t.name).mp hres with h | h
    · exact Or.inr (inv.resacc t ht h)
    · rcases List.mem_map.mp h with ⟨s, hs, hsn⟩
      have hts : s = t :=
        List.inj_on_of_nodup_map hnd (hlvl s hs).1 ht hsn
      exact Or.inl (hts ▸ hs)
  · rw [List.flatten_cons, List.map_append]
    refine List.Nodup.append hlvlnd inv.accnodup ?_
    intro n hn1 hn2
    rcases List.mem_map.mp hn1 with ⟨t, ht, rfl⟩
    rcases List.mem_map.mp hn2 with ⟨s, hs, hsn⟩
    exact (hlvl t ht).2.1 (hsn ▸ inv.accres s hs)
  · rw [List.reverse_cons]
    refine levelsOrdered_append level acc.reverse [] inv.ordered ?_
    intro t ht d hd
    have h0 : inDeg t.name = 0 := (hlvl t ht).2.2
    rw [inv.deg t (hlvl t ht).1] at h0
    have hdres : d ∈ resolved :=
      deps_resolved_of_deg_zero resolved inv.rnodup t.dependsOn h0 d hd
    rcases List.mem_map.mp (inv.rsub d hdres) with ⟨u, hu, huname⟩
    have huacc : u ∈ acc.flatten := inv.resacc u hu (huname ▸ hdres)
    have humem : u ∈ acc.reverse.flatten :=
      (flatten_reverse_perm acc).mem_iff.mpr huacc
    rw [List.nil_append]
    exact List.mem_map.mpr ⟨u, humem, huname⟩

theorem KahnInv_finish (tasks : List TaskInstance) (resolved : List String)
    (inDeg : String → Int) (acc : List (List TaskInstance))
    (inv : KahnInv tasks resolved inDeg acc) (hlen : tasks.length ≤ resolved.length) :
    (∀ t ∈ tasks, t ∈ acc.reverse.flatten) ∧ (∀ t ∈ acc.reverse.flatten, t ∈ tasks) ∧
    ((acc.reverse.flatten.map TaskInstance.name).Nodup) ∧
    LevelsOrdered acc.reverse [] := by
  have hfull : ∀ n ∈ tasks.map TaskInstance.name, n ∈ resolved := by
    refine nodup_subset_full (tasks.map TaskInstance.name) resolved inv.rnodup inv.rsub ?_
    simpa using hlen
  refine ⟨?_, ?_, ?_, inv.ordered⟩
  · intro t ht
    have h1 : t.name ∈ resolved := hfull t.name (List.mem_map.mpr ⟨t, ht, rfl⟩)
    exact (flatten_reverse_perm acc).mem_iff.mpr (inv.resacc t ht h1)
  · intro t ht
    exact inv.accsub t ((flatten_reverse_perm acc).mem_iff.mp ht)
  · exact (List.Perm.nodup_iff (List.Perm.map _ (flatten_reverse_perm acc))).mpr inv.accnodup

theorem topoSortLoop_error_msg (tasks : List TaskInstance)
    (dependents : String → List String) :
    ∀ (fuel : Nat) (resolved : List String) (inDeg : String → Int)
      (acc : List (List TaskInstance)) (msg : String),
      topoSortLoop tasks dependents fuel resolved inDeg acc = .error msg →
      msg = cycleMsg := by
  intro fuel
  induction fuel with
  | zero =>
      intro resolved inDeg acc msg h
      unfold topoSortLoop at h
      by_cases hc : resolved.length < tasks.length
      · rw [if_pos hc] at h
        exact (Except.error.inj h).symm
      · rw [if_neg hc] at h
        exact absurd h (by simp)
  | succ f ih =>
      intro resolved inDeg acc msg h
      unfold topoSortLoop at h
      by_cases hc : resolved.length < tasks.length
      · rw [if_pos hc] at h
        by_cases he : (tasks.filter (fun t => ¬ t.name ∈ resolved ∧ inDeg t.name = 0)).isEmpty
        · simp only [he, if_true] at h
          exact (Except.error.inj h).symm
        · simp only [he, if_false, Bool.false_eq_true] at h
          exact ih _ _ _ _ h
      · rw [if_neg hc] at h
        exact absurd h (by simp)

theorem topoSortLoop_ok_props (tasks : List TaskInstance)
    (hnd : (tasks.map TaskInstance.name).Nodup) :
    ∀ (fuel : Nat) (resolved : List String) (inDeg : String → Int)
      (acc : List (List TaskInstance)) (levels : List (List TaskInstance)),
      KahnInv tasks resolved inDeg acc →
      topoSortLoop tasks (buildDependents tasks) fuel resolved inDeg acc = .ok levels →
      (∀ t ∈ tasks, t ∈ levels.flatten) ∧ (∀ t ∈ levels.flatten, t ∈ tasks) ∧
      ((levels.flatten.map TaskInstance.name).Nodup) ∧ LevelsOrdered levels [] := by
  intro fuel
  induction fuel with
  | zero =>
      intro resolved inDeg acc levels inv h
      unfold topoSortLoop at h
      by_cases hc : resolved.length < tasks.length
      · rw [if_pos hc] at h
        exact absurd h (by simp)
      · rw [if_neg hc] at h
        have hlv : levels = acc.reverse := (Except.ok.inj h).symm
        subst hlv
        exact KahnInv_finish tasks resolved inDeg acc inv (Nat.le_of_not_lt hc)
  | succ f ih =>
      intro resolved inDeg acc levels inv h
      unfold topoSortLoop at h
      by_cases hc : resolved.length < tasks.length
      · rw [if_pos hc] at h
        by_cases he : (tasks.filter (fun t => ¬ t.name ∈ resolved ∧ inDeg t.name = 0)).isEmpty
        · simp only [he, if_true] at h
          exact absurd h (by simp)
        · simp only [he, if_false, Bool.false_eq_true] at h
          exact ih _ _ _ levels (KahnInv_step tasks hnd resolved inDeg acc inv) h
      · rw [if_neg hc] at h
        have hlv : levels = acc.reverse := (Except.ok.inj h).symm
        subst hlv
        exact KahnInv_finish tasks resolved inDeg acc inv (Nat.le_of_not_lt hc)

theorem topoSortLoop_progress (tasks : List TaskInstance)
    (hnd : (tasks.map TaskInstance.name).Nodup)
    (hdeps : ∀ t ∈ tasks, ∀ d ∈ t.dependsOn, d ∈ tasks.map TaskInstance.name)
    (rank : String → Nat)
    (hrank : ∀ t ∈ tasks, ∀ d ∈ t.dependsOn, rank d < rank t.name) :
    ∀ (fuel : Nat) (resolved : List String) (inDeg : String → Int)
      (acc : List (List TaskInstance)),
      KahnInv tasks resolved inDeg acc →
      tasks.length - resolved.length ≤ fuel →
      ∃ levels, topoSortLoop tasks (buildDependents tasks) fuel resolved inDeg acc =
        .ok levels := by
  intro fuel
  induction fuel with
  | zero =>
      intro resolved inDeg acc inv hfuel
      have hc : ¬ resolved.length < tasks.length := by omega
      refine ⟨acc.reverse, ?_⟩
      unfold topoSortLoop
      rw [if_neg hc]
  | succ f ih =>
      intro resolved inDeg acc inv hfuel
      by_cases hc : resolved.length < tasks.length
      · have hUne : tasks.filter (fun t => ¬ t.name ∈ resolved) ≠ [] := by
          intro hU
          have hall : ∀ t ∈ tasks, t.name ∈ resolved := by
            intro t ht
            have := List.filter_eq_nil_iff.mp hU t ht
            simpa using this
          have hsub : ∀ n ∈ tasks.map TaskInstance.name, n ∈ resolved := by
            intro n hn
            rcases List.mem_map.mp hn with ⟨t, ht, rfl⟩
            exact hall t ht
          have := nodup_length_le (tasks.map TaskInstance.name) resolved hnd hsub
          simp at this
          omega
        obtain ⟨tstar, hts⟩ :
            ∃ t, (tasks.filter (fun t => ¬ t.name ∈ resolved)).argmin
              (fun t => rank t.name) = some t := by
          cases ha : (tasks.filter (fun t => ¬ t.name ∈ resolved)).argmin
              (fun t => rank t.name) with
          | none => exact absurd (List.argmin_eq_none.mp ha) hUne
          | some t => exact ⟨t, rfl⟩
        have htsmem : tstar ∈ (tasks.filter (fun t => ¬ t.name ∈ resolved)).argmin
            (fun t => rank t.name) := by rw [hts]; rfl
        have htsU : tstar ∈ tasks.filter (fun t => ¬ t.name ∈ resolved) :=
          List.argmin_mem htsmem
        have htstasks : tstar ∈ tasks := (List.mem_filter.mp htsU).1
        have htsnew : ¬ tstar.name ∈ resolved := by
          have := (List.mem_filter.mp htsU).2
          simpa using this
        have hmin : ∀ u ∈ tasks.filter (fun t => ¬ t.name ∈ resolved),
            rank tstar.name ≤ rank u.name :=
          fun u hu =>
            @List.le_of_mem_argmin TaskInstance Nat _ (fun t => rank t.name)
              (tasks.filter (fun t => ¬ t.name ∈ resolved)) u tstar hu htsmem
        have hdepsres : ∀ d ∈ tstar.dependsOn, d ∈ resolved := by
          intro d hd
          rcases List.mem_map.mp (hdeps tstar htstasks d hd) with ⟨u, hu, huname⟩
          by_cases hur : u.name ∈ resolved
          · exact huname ▸ hur
          · have huU : u ∈ tasks.filter (fun t => ¬ t.name ∈ resolved) :=
              List.mem_filter.mpr ⟨hu, by simpa using hur⟩
            have h1 := hmin u huU
            have h2 := hrank tstar htstasks d hd
            rw [← huname] at h2
            omega
        have hdeg0 : inDeg tstar.name = 0 := by
          rw [inv.deg tstar htstasks]
          have hfil : tstar.dependsOn.filter (fun d => ¬ d ∈ resolved) = [] := by
            refine List.filter_eq_nil_iff.mpr ?_
            intro d hd
            simpa using hdepsres d hd
          have hcl := length_filter_not_mem tstar.dependsOn resolved inv.rnodup
          rw [hfil] at hcl
          simp at hcl
          omega
        have htslevel : tstar ∈ tasks.filter
            (fun t => ¬ t.name ∈ resolved ∧ inDeg t.name = 0) :=
          List.mem_filter.mpr ⟨htstasks, by simp [htsnew, hdeg0]⟩
        have hlvlne : (tasks.filter
            (fun t => ¬ t.name ∈ resolved ∧ inDeg t.name = 0)).isEmpty = false := by
          cases hl : tasks.filter (fun t => ¬ t.name ∈ resolved ∧ inDeg t.name = 0) with
          | nil => rw [hl] at htslevel; simp at htslevel
          | cons x xs => rfl
        have hgrow : resolved.length <
            (resolveLevel (buildDependents tasks) (resolved, inDeg)
              (tasks.filter (fun t => ¬ t.name ∈ resolved ∧ inDeg t.name = 0))).1.length := by
          rw [resolveLevel_fst]
          exact insertFold_length_lt _ resolved tstar htslevel htsnew
        obtain ⟨levels, hlv⟩ := ih
          (resolveLevel (buildDependents tasks) (resolved, inDeg)
            (tasks.filter (fun t => ¬ t.name ∈ resolved ∧ inDeg t.name = 0))).1
          (resolveLevel (buildDependents tasks) (resolved, inDeg)
            (tasks.filter (fun t => ¬ t.name ∈ resolved ∧ inDeg t.name = 0))).2
          ((tasks.filter (fun t => ¬ t.name ∈ resolved ∧ inDeg t.name = 0)) :: acc)
          (KahnInv_step tasks hnd resolved inDeg acc inv) (by omega)
        refine ⟨levels, ?_⟩
        unfold topoSortLoop
        rw [if_pos hc]
        simp only [hlvlne, if_false, Bool.false_eq_true]
        exact hlv
      · refine ⟨acc.reverse, ?_⟩
        unfold topoSortLoop
        rw [if_neg hc]

theorem rankOf_lt_of_levelsOrdered :
    ∀ (levels : List (List TaskInstance)) (prior : List String),
      LevelsOrdered levels prior →
      (∀ n ∈ prior, ¬ n ∈ (levels.flatten).map TaskInstance.name) →
      ((levels.flatten).map TaskInstance.name).Nodup →
      ∀ t ∈ levels.flatten, ∀ d ∈ t.dependsOn,
        d ∈ prior ∨ rankOf levels d < rankOf levels t.name := by
  intro levels
  induction levels with
  | nil => intro prior _ _ _ t ht; simp at ht
  | cons lvl rest ih =>
      intro prior hord hdisj hnd t ht d hd
      obtain ⟨h1, h2⟩ := hord
      rw [List.flatten_cons] at ht hnd
      rw [List.map_append] at hnd
      have hndparts := List.nodup_append.mp hnd
      rcases List.mem_append.mp ht with hh | hh
      · exact Or.inl (h1 t hh d hd)
      · have htname : t.name ∈ (rest.flatten).map TaskInstance.name :=
          List.mem_map.mpr ⟨t, hh, rfl⟩
        have htnotlvl : ¬ t.name ∈ lvl.map TaskInstance.name := by
          intro hcon
          exact hndparts.2.2 hcon htname
        have hdisj2 : ∀ n ∈ prior ++ lvl.map TaskInstance.name,
            ¬ n ∈ (rest.flatten).map TaskInstance.name := by
          intro n hn
          rcases List.mem_append.mp hn with hp | hl
          · intro hcon
            refine hdisj n hp ?_
            rw [List.flatten_cons, List.map_append]
            exact List.mem_append.mpr (Or.inr hcon)
          · exact hndparts.2.2 hl
        have hrt : rankOf (lvl :: rest) t.name = rankOf rest t.name + 1 := by
          simp [rankOf, htnotlvl]
        have hIH := ih (prior ++ lvl.map TaskInstance.name) h2 hdisj2 hndparts.2.1 t hh d hd
        rcases hIH with hdp | hlt
        · rcases List.mem_append.mp hdp with hp | hl
          · exact Or.inl hp
          · refine Or.inr ?_
            have hrd : rankOf (lvl :: rest) d = 0 := by simp [rankOf, hl]
            omega
        · refine Or.inr ?_
          by_cases hdl : d ∈ lvl.map TaskInstance.name
          · have hrd : rankOf (lvl :: rest) d = 0 := by simp [rankOf, hdl]
            omega
          · have hrd : rankOf (lvl :: rest) d = rankOf rest d + 1 := by
              simp [rankOf, hdl]
            omega

/-! ## topoSort level partition (claim C3) -/

/-- C3: for a task list with unique names (the DAG data model requires
this) whose dependency graph is acyclic — witnessed, as usual for finite
graphs, by a rank function strictly decreasing along dependency edges —
and whose dependencies all name tasks in the list, `topoSort` succeeds and
returns a partition of the tasks into ordered levels: the flattened levels
are a permutation of the task list, and every declared dependency of a
task sits at a strictly earlier level (`LevelsOrdered`). -/
theorem toposort_levels (tasks : List TaskInstance) (rank : String → Nat)
    (hnd : (tasks.map TaskInstance.name).Nodup)
    (hdeps : ∀ t ∈ tasks, ∀ d ∈ t.dependsOn, d ∈ tasks.map TaskInstance.name)
    (hrank : ∀ t ∈ tasks, ∀ d ∈ t.dependsOn, rank d < rank t.name) :
    ∃ levels, topoSort tasks = .ok levels ∧ levels.flatten.Perm tasks ∧
      LevelsOrdered levels [] := by
  obtain ⟨levels, hlv⟩ := topoSortLoop_progress tasks hnd hdeps rank hrank
    (tasks.length + 1) [] (buildInDegree tasks) [] (KahnInv_init tasks hnd) (by omega)
  obtain ⟨hcov, hsub, hnodup, hord⟩ := topoSortLoop_ok_props tasks hnd
    (tasks.length + 1) [] (buildInDegree tasks) [] levels (KahnInv_init tasks hnd) hlv
  refine ⟨levels, hlv, ?_, hord⟩
  have hnd1 : levels.flatten.Nodup := List.Nodup.of_map _ hnodup
  have hnd2 : tasks.Nodup := List.Nodup.of_map _ hnd
  exact (List.perm_ext_iff_of_nodup hnd1 hnd2).mpr
    (fun a => ⟨fun h => hsub a h, fun h => hcov a h⟩)

/-- Witness for C3 on the linear-chain-plus-independent-task DAG. -/
theorem toposort_levels_witness :
    topoSort [⟨"a", []⟩, ⟨"b", ["a"]⟩, ⟨"c", ["b"]⟩, ⟨"d", []⟩] =
      .ok [[⟨"a", []⟩, ⟨"d", []⟩], [⟨"b", ["a"]⟩], [⟨"c", ["b"]⟩]] ∧
    ([[(⟨"a", []⟩ : TaskInstance), ⟨"d", []⟩], [⟨"b", ["a"]⟩],
      [⟨"c", ["b"]⟩]].flatten).Perm [⟨"a", []⟩, ⟨"b", ["a"]⟩, ⟨"c", ["b"]⟩, ⟨"d", []⟩] ∧
    LevelsOrdered [[⟨"a", []⟩, ⟨"d", []⟩], [⟨"b", ["a"]⟩], [⟨"c", ["b"]⟩]] [] := by
  obtain ⟨levels, h1, h2, h3⟩ := toposort_levels
    [⟨"a", []⟩, ⟨"b", ["a"]⟩, ⟨"c", ["b"]⟩, ⟨"d", []⟩]
    (fun n => if n = "b" then 1 else if n = "c" then 2 else 0)
    (by decide) (by decide) (by decide)
  have h4 : topoSort [⟨"a", []⟩, ⟨"b", ["a"]⟩, ⟨"c", ["b"]⟩, ⟨"d", []⟩] =
      .ok [[⟨"a", []⟩, ⟨"d", []⟩], [⟨"b", ["a"]⟩], [⟨"c", ["b"]⟩]] := by rfl
  rw [h4] at h1
  have h5 := Except.ok.inj h1
  subst h5
  exact ⟨h4, h2, h3⟩

/-! ## topoSort cycle error (claim C5) -/

/-- C5 counterexample: on a cyclic dependency graph `topoSort` does return
an error, but the error is the constant message
`cycle detected in task dependencies`: the same string for entirely
different task sets, containing neither involved task name — it does not
name the implicated set (the pre-run validator's `detectCycles`, not
`topoSort`, is what reports the cycle members). -/
theorem toposort_cycle_message_counterexample :
    topoSort [⟨"x1", ["y2"]⟩, ⟨"y2", ["x1"]⟩] = .error cycleMsg ∧
    topoSort [⟨"p9", ["q8"]⟩, ⟨"q8", ["p9"]⟩] = .error cycleMsg ∧
    ¬ ("x1".toList <:+: cycleMsg.toList) ∧ ¬ ("y2".toList <:+: cycleMsg.toList) ∧
    ¬ ("p9".toList <:+: cycleMsg.toList) ∧ ¬ ("q8".toList <:+: cycleMsg.toList) := by
  refine ⟨by rfl, by rfl, by decide, by decide, by decide, by decide⟩

/-- C5 amended: for every task list with unique names whose dependency
graph has a cycle (no rank function strictly decreasing along dependency
edges exists), `topoSort` returns an error — but it is always the fixed
message `cycle detected in task dependencies`, which does not name the
implicated tasks. -/
theorem toposort_cycle_error (tasks : List TaskInstance)
    (hnd : (tasks.map TaskInstance.name).Nodup)
    (hcyc : ¬ ∃ rank : String → Nat,
      ∀ t ∈ tasks, ∀ d ∈ t.dependsOn, rank d < rank t.name) :
    topoSort tasks = .error cycleMsg := by
  cases h : topoSort tasks with
  | ok levels =>
      exfalso
      unfold topoSort at h
      obtain ⟨hcov, _, hnodup, hord⟩ := topoSortLoop_ok_props tasks hnd
        (tasks.length + 1) [] (buildInDegree tasks) [] levels (KahnInv_init tasks hnd) h
      refine hcyc ⟨rankOf levels, ?_⟩
      intro t ht d hd
      have hro := rankOf_lt_of_levelsOrdered levels [] hord (by simp) hnodup t
        (hcov t ht) d hd
      rcases hro with h1 | h1
      · simp at h1
      · exact h1
  | error msg =>
      have h2 : topoSortLoop tasks (buildDependents tasks) (tasks.length + 1) []
          (buildInDegree tasks) [] = .error msg := h
      rw [topoSortLoop_error_msg tasks (buildDependents tasks) (tasks.length + 1) []
        (buildInDegree tasks) [] msg h2]

/-- Witness for C5 (amended) on a two-task cycle. -/
theorem toposort_cycle_error_witness :
    topoSort [⟨"x1", ["y2"]⟩, ⟨"y2", ["x1"]⟩] = .error cycleMsg :=
  toposort_cycle_error [⟨"x1", ["y2"]⟩, ⟨"y2", ["x1"]⟩] (by decide)
    (by
      rintro ⟨rank, hr⟩
      have h1 := hr ⟨"x1", ["y2"]⟩ (by simp) "y2" (by simp)
      have h2 := hr ⟨"y2", ["x1"]⟩ (by simp) "x1" (by simp)
      simp only at h1 h2
      omega)

/-! ## Run-state lemmas (claims C1, C2) -/

theorem setStatus_fst (st : RunState) (n : String) (s : TaskStatus) :
    (setStatus st n s).map Prod.fst = st.map Prod.fst := by
  induction st with
  | nil => rfl
  | cons p rest ih =>
      by_cases hp : p.1.name = n <;> simp [setStatus, hp] <;>
        simpa [setStatus] using ih

theorem setStatus_cons (p : TaskInstance × TaskStatus) (rest : RunState)
    (n : String) (s : TaskStatus) :
    setStatus (p :: rest) n s =
      (if p.1.name = n then (p.1, s) else p) :: setStatus rest n s := by
  simp only [setStatus, List.map_cons]

theorem lookupStatus_cons (p : TaskInstance × TaskStatus) (rest : RunState) (n : String) :
    lookupStatus (p :: rest) n =
      if p.1.name = n then p.2 else lookupStatus rest n := by
  simp only [lookupStatus, List.find?]
  by_cases hp : p.1.name = n
  · rw [show (decide (p.1.name = n)) = true from by simpa using hp, if_pos hp]
  · rw [show (decide (p.1.name = n)) = false from by simpa using hp, if_neg hp]

theorem lookupStatus_setStatus_other (st : RunState) (n m : String) (s : TaskStatus)
    (h : m ≠ n) : lookupStatus (setStatus st n s) m = lookupStatus st m := by
  induction st with
  | nil => rfl
  | cons p rest ih =>
      rw [setStatus_cons]
      by_cases hp : p.1.name = n
      · rw [if_pos hp, lookupStatus_cons, lookupStatus_cons]
        have hm : ¬ p.1.name = m := fun hcon => h ((hcon ▸ hp).symm ▸ rfl)
        rw [if_neg hm, if_neg hm]
        exact ih
      · rw [if_neg hp, lookupStatus_cons, lookupStatus_cons]
        by_cases hm : p.1.name = m
        · rw [if_pos hm, if_pos hm]
        · rw [if_neg hm, if_neg hm]
          exact ih

theorem lookupStatus_setStatus_same (st : RunState) (n : String) (s : TaskStatus)
    (h : ∃ p ∈ st, p.1.name = n) : lookupStatus (setStatus st n s) n = s := by
  induction st with
  | nil => simp at h
  | cons p rest ih =>
      rw [setStatus_cons]
      by_cases hp : p.1.name = n
      · rw [if_pos hp, lookupStatus_cons, if_pos hp]
      · rw [if_neg hp, lookupStatus_cons, if_neg hp]
        refine ih ?_
        rcases h with ⟨q, hq, hqn⟩
        rcases List.mem_cons.mp hq with hh | hh
        · exact absurd (hh ▸ hqn) hp
        · exact ⟨q, hh, hqn⟩

theorem mem_lookupStatus (st : RunState)
    (hnd : (st.map (fun p => p.1.name)).Nodup) :
    ∀ p ∈ st, lookupStatus st p.1.name = p.2 := by
  induction st with
  | nil => intro p hp; simp at hp
  | cons q rest ih =>
      intro p hp
      rw [List.map_cons, List.nodup_cons] at hnd
      rcases List.mem_cons.mp hp with hh | hh
      · subst hh
        rw [lookupStatus_cons, if_pos rfl]
      · have hne : ¬ q.1.name = p.1.name := by
          intro hcon
          exact hnd.1 (hcon ▸ List.mem_map.mpr ⟨p, hh, rfl⟩)
        rw [lookupStatus_cons, if_neg hne]
        exact ih hnd.2 p hh

theorem names_eq_of_fst_eq (st st' : RunState)
    (h : st'.map Prod.fst = st.map Prod.fst) :
    st'.map (fun p => p.1.name) = st.map (fun p => p.1.name) := by
  have h2 : (st'.map Prod.fst).map TaskInstance.name =
      (st.map Prod.fst).map TaskInstance.name := by rw [h]
  simpa [List.map_map] using h2

theorem runLevel_eq_fold (env : String → TaskEnv) (st : RunState)
    (level : List TaskInstance) :
    runLevel env st level =
      level.foldl (fun s t =>
        if hasUpstreamFailure t (fun n => lookupStatus st n) then
          setStatus s t.name .upstreamFailed
        else setStatus s t.name (executeTask (env t.name)).status) st := rfl

theorem levelFold_fst (env : String → TaskEnv) (m : String → TaskStatus)
    (level : List TaskInstance) :
    ∀ (st : RunState),
      ((level.foldl (fun s t =>
        if hasUpstreamFailure t m then setStatus s t.name .upstreamFailed
        else setStatus s t.name (executeTask (env t.name)).status) st).map Prod.fst) =
      st.map Prod.fst := by
  induction level with
  | nil => intro st; rfl
  | cons t rest ih =>
      intro st
      rw [List.foldl_cons]
      by_cases hup : hasUpstreamFailure t m
      · rw [if_pos hup, ih, setStatus_fst]
      · rw [if_neg hup, ih, setStatus_fst]

theorem levelFold_lookup_not_mem (env : String → TaskEnv) (m : String → TaskStatus)
    (level : List TaskInstance) :
    ∀ (st : RunState) (n : String), ¬ n ∈ level.map TaskInstance.name →
      lookupStatus (level.foldl (fun s t =>
        if hasUpstreamFailure t m then setStatus s t.name .upstreamFailed
        else setStatus s t.name (executeTask (env t.name)).status) st) n =
      lookupStatus st n := by
  induction level with
  | nil => intro st n _; rfl
  | cons t rest ih =>
      intro st n hn
      have hnt : n ≠ t.name := fun hcon => hn (by simp [hcon])
      have hnr : ¬ n ∈ rest.map TaskInstance.name :=
        fun hc => hn (List.mem_cons_of_mem _ hc)
      rw [List.foldl_cons]
      by_cases hup : hasUpstreamFailure t m
      · rw [if_pos hup, ih _ n hnr, lookupStatus_setStatus_other _ _ _ _ hnt]
      · rw [if_neg hup, ih _ n hnr, lookupStatus_setStatus_other _ _ _ _ hnt]

theorem levelFold_lookup_mem (env : String → TaskEnv) (m : String → TaskStatus)
    (level : List TaskInstance) :
    ∀ (st : RunState) (t : TaskInstance), (level.map TaskInstance.name).Nodup →
      t ∈ level → t.name ∈ st.map (fun p => p.1.name) →
      lookupStatus (level.foldl (fun s t =>
        if hasUpstreamFailure t m then setStatus s t.name .upstreamFailed
        else setStatus s t.name (executeTask (env t.name)).status) st) t.name =
      (if hasUpstreamFailure t m then TaskStatus.upstreamFailed
       else (executeTask (env t.name)).status) := by
  induction level with
  | nil => intro st t _ ht _; simp at ht
  | cons s rest ih =>
      intro st t hnd ht hentry
      rw [List.map_cons, List.nodup_cons] at hnd
      rcases List.mem_cons.mp ht with hh | hh
      · subst hh
        rw [List.foldl_cons]
        have hex : ∃ p ∈ st, p.1.name = t.name := by
          rcases List.mem_map.mp hentry with ⟨p, hp, hpn⟩
          exact ⟨p, hp, hpn⟩
        by_cases hup : hasUpstreamFailure t m
        · rw [if_pos hup, if_pos hup,
            levelFold_lookup_not_mem env m rest _ t.name hnd.1,
            lookupStatus_setStatus_same _ _ _ hex]
        · rw [if_neg hup, if_neg hup,
            levelFold_lookup_not_mem env m rest _ t.name hnd.1,
            lookupStatus_setStatus_same _ _ _ hex]
      · have hst : s.name ≠ t.name := by
          intro hcon
          exact hnd.1 (hcon ▸ List.mem_map.mpr ⟨t, hh, rfl⟩)
        rw [List.foldl_cons]
        have hentry2 : ∀ st2 : RunState, st2.map Prod.fst = st.map Prod.fst →
            t.name ∈ st2.map (fun p => p.1.name) := by
          intro st2 h2
          rw [names_eq_of_fst_eq st st2 h2]
          exact hentry
        by_cases hup : hasUpstreamFailure s m
        · rw [if_pos hup]
          exact ih _ t hnd.2 hh (hentry2 _ (setStatus_fst st s.name _))
        · rw [if_neg hup]
          exact ih _ t hnd.2 hh (hentry2 _ (setStatus_fst st s.name _))

theorem cancelLevel_fst (level : List TaskInstance) :
    ∀ (st : RunState), (cancelLevel st level).map Prod.fst = st.map Prod.fst := by
  induction level with
  | nil => intro st; rfl
  | cons t rest ih =>
      intro st
      simp only [cancelLevel, List.foldl_cons] at *
      by_cases hp : lookupStatus st t.name = .pending
      · rw [if_pos hp, ih, setStatus_fst]
      · rw [if_neg hp, ih]

theorem cancelLevel_lookup_not_mem (level : List TaskInstance) :
    ∀ (st : RunState) (n : String), ¬ n ∈ level.map TaskInstance.name →
      lookupStatus (cancelLevel st level) n = lookupStatus st n := by
  induction level with
  | nil => intro st n _; rfl
  | cons t rest ih =>
      intro st n hn
      have hnt : n ≠ t.name := fun hcon => hn (by simp [hcon])
      have hnr : ¬ n ∈ rest.map TaskInstance.name :=
        fun hc => hn (List.mem_cons_of_mem _ hc)
      simp only [cancelLevel, List.foldl_cons] at *
      by_cases hp : lookupStatus st t.name = .pending
      · rw [if_pos hp, ih _ n hnr, lookupStatus_setStatus_other _ _ _ _ hnt]
      · rw [if_neg hp, ih _ n hnr]

theorem cancelLevel_lookup_mem (level : List TaskInstance) :
    ∀ (st : RunState) (t : TaskInstance), (level.map TaskInstance.name).Nodup →
      t ∈ level → t.name ∈ st.map (fun p => p.1.name) →
      lookupStatus (cancelLevel st level) t.name =
        (if lookupStatus st t.name = .pending then TaskStatus.failed
         else lookupStatus st t.name) := by
  induction level with
  | nil => intro st t _ ht _; simp at ht
  | cons s rest ih =>
      intro st t hnd ht hentry
      rw [List.map_cons, List.nodup_cons] at hnd
      rcases List.mem_cons.mp ht with hh | hh
      · subst hh
        simp only [cancelLevel, List.foldl_cons]
        have hex : ∃ p ∈ st, p.1.name = t.name := by
          rcases List.mem_map.mp hentry with ⟨p, hp, hpn⟩
          exact ⟨p, hp, hpn⟩
        by_cases hp : lookupStatus st t.name = .pending
        · rw [if_pos hp, if_pos hp]
          have hrest := cancelLevel_lookup_not_mem rest
            (setStatus st t.name .failed) t.name hnd.1
          simp only [cancelLevel] at hrest
          rw [hrest, lookupStatus_setStatus_same _ _ _ hex]
        · rw [if_neg hp, if_neg hp]
          have hrest := cancelLevel_lookup_not_mem rest st t.name hnd.1
          simp only [cancelLevel] at hrest
          rw [hrest]
      · have hst : s.name ≠ t.name := by
          intro hcon
          exact hnd.1 (hcon ▸ List.mem_map.mpr ⟨t, hh, rfl⟩)
        simp only [cancelLevel, List.foldl_cons]
        by_cases hp : lookupStatus st s.name = .pending
        · rw [if_pos hp]
          have hih := ih (setStatus st s.name .failed) t hnd.2 hh ?_
          · simp only [cancelLevel] at hih
            rw [hih, lookupStatus_setStatus_other _ _ _ _ (Ne.symm hst)]
          · rw [names_eq_of_fst_eq st _ (setStatus_fst st s.name _)]
            exact hentry
        · rw [if_neg hp]
          have hih := ih st t hnd.2 hh hentry
          simp only [cancelLevel] at hih
          rw [hih]

theorem executeDAG_fst (env : String → TaskEnv) (ctxAt : Nat → Bool) :
    ∀ (levels : List (List TaskInstance)) (i : Nat) (st : RunState),
      (executeDAG env ctxAt levels i st).map Prod.fst = st.map Prod.fst := by
  intro levels
  induction levels with
  | nil => intro i st; rfl
  | cons lvl rest ih =>
      intro i st
      simp only [executeDAG]
      by_cases hc : ctxAt i = true
      · rw [if_pos hc, ih, cancelLevel_fst]
      · rw [if_neg hc, ih, runLevel_eq_fold, levelFold_fst]

theorem executeDAG_lookup_not_mem (env : String → TaskEnv) (ctxAt : Nat → Bool) :
    ∀ (levels : List (List TaskInstance)) (i : Nat) (st : RunState) (n : String),
      ¬ n ∈ levels.flatten.map TaskInstance.name →
      lookupStatus (executeDAG env ctxAt levels i st) n = lookupStatus st n := by
  intro levels
  induction levels with
  | nil => intro i st n _; rfl
  | cons lvl rest ih =>
      intro i st n hn
      rw [List.flatten_cons, List.map_append, List.mem_append] at hn
      have hlvl : ¬ n ∈ lvl.map TaskInstance.name := fun hc => hn (Or.inl hc)
      have hrest : ¬ n ∈ rest.flatten.map TaskInstance.name := fun hc => hn (Or.inr hc)
      simp only [executeDAG]
      by_cases hc : ctxAt i = true
      · rw [if_pos hc, ih _ _ n hrest, cancelLevel_lookup_not_mem lvl st n hlvl]
      · rw [if_neg hc, ih _ _ n hrest, runLevel_eq_fold,
          levelFold_lookup_not_mem env _ lvl st n hlvl]

theorem executeDAG_pending_terminal (env : String → TaskEnv) (ctxAt : Nat → Bool) :
    ∀ (levels : List (List TaskInstance)) (i : Nat) (st : RunState) (t : TaskInstance),
      (levels.flatten.map TaskInstance.name).Nodup →
      t ∈ levels.flatten →
      t.name ∈ st.map (fun p => p.1.name) →
      lookupStatus st t.name = .pending →
      lookupStatus (executeDAG env ctxAt levels i st) t.name = .success ∨
      lookupStatus (executeDAG env ctxAt levels i st) t.name = .failed ∨
      lookupStatus (executeDAG env ctxAt levels i st) t.name = .upstreamFailed := by
  intro levels
  induction levels with
  | nil => intro i st t _ ht _ _; simp at ht
  | cons lvl rest ih =>
      intro i st t hnd ht hentry hpend
      rw [List.flatten_cons, List.map_append, List.nodup_append] at hnd
      obtain ⟨hnd1, hnd2, hdisj⟩ := hnd
      rw [List.flatten_cons, List.mem_append] at ht
      simp only [executeDAG]
      rcases ht with htl | htr
      · have hrest : ¬ t.name ∈ rest.flatten.map TaskInstance.name :=
          fun hc => hdisj (List.mem_map.mpr ⟨t, htl, rfl⟩) hc
        by_cases hc : ctxAt i = true
        · rw [if_pos hc, executeDAG_lookup_not_mem env ctxAt rest _ _ _ hrest,
            cancelLevel_lookup_mem lvl st t hnd1 htl hentry, if_pos hpend]
          right; left; rfl
        · rw [if_neg hc, executeDAG_lookup_not_mem env ctxAt rest _ _ _ hrest,
            runLevel_eq_fold,
            levelFold_lookup_mem env _ lvl st t hnd1 htl hentry]
          by_cases hup : hasUpstreamFailure t (fun n => lookupStatus st n) = true
          · rw [if_pos hup]; right; right; rfl
          · rw [if_neg hup]
            rcases executeTask_status_terminal (env t.name) with h | h
            · left; exact h
            · right; left; exact h
      · have hlvl : ¬ t.name ∈ lvl.map TaskInstance.name :=
          fun hc => hdisj hc (List.mem_map.mpr ⟨t, htr, rfl⟩)
        by_cases hc : ctxAt i = true
        · rw [if_pos hc]
          refine ih (i + 1) _ t hnd2 htr ?_ ?_
          · rw [names_eq_of_fst_eq st _ (cancelLevel_fst lvl st)]
            exact hentry
          · rw [cancelLevel_lookup_not_mem lvl st t.name hlvl]
            exact hpend
        · rw [if_neg hc]
          refine ih (i + 1) _ t hnd2 htr ?_ ?_
          · rw [runLevel_eq_fold, names_eq_of_fst_eq st _ (levelFold_fst env _ lvl st)]
            exact hentry
          · rw [runLevel_eq_fold, levelFold_lookup_not_mem env _ lvl st t.name hlvl]
            exact hpend

theorem lookupStatus_init (tasks : List TaskInstance) (n : String) :
    lookupStatus (tasks.map (fun t => (t, TaskStatus.pending))) n = .pending := by
  induction tasks with
  | nil => rfl
  | cons t rest ih =>
      rw [List.map_cons, lookupStatus_cons]
      by_cases hc : t.name = n
      · rw [if_pos hc]
      · rw [if_neg hc]; exact ih

theorem init_fsts (tasks : List TaskInstance) :
    (tasks.map (fun t => (t, TaskStatus.pending))).map Prod.fst = tasks := by
  induction tasks with
  | nil => rfl
  | cons t rest ih => rw [List.map_cons, List.map_cons, ih]

theorem init_names (tasks : List TaskInstance) :
    (tasks.map (fun t => (t, TaskStatus.pending))).map
      (fun p : TaskInstance × TaskStatus => p.1.name) = tasks.map TaskInstance.name := by
  rw [List.map_map]; rfl

theorem runStatus_failed_of_mem (st : RunState) (p : TaskInstance × TaskStatus)
    (hp : p ∈ st) (h : p.2 = .failed ∨ p.2 = .upstreamFailed) :
    runStatus st = .failed := by
  unfold runStatus
  rw [if_pos (List.any_eq_true.mpr ⟨p, hp, by simpa using h⟩)]

theorem runStatus_success_no_fail (st : RunState) (h : runStatus st = .success) :
    ∀ p ∈ st, ¬ p.2 = .failed ∧ ¬ p.2 = .upstreamFailed := by
  intro p hp
  unfold runStatus at h
  by_cases hc : st.any (fun p => decide (p.2 = .failed ∨ p.2 = .upstreamFailed)) = true
  · rw [if_pos hc] at h; exact absurd h (by simp)
  · constructor
    · intro hcon
      exact hc (List.any_eq_true.mpr ⟨p, hp, by simp [hcon]⟩)
    · intro hcon
      exact hc (List.any_eq_true.mpr ⟨p, hp, by simp [hcon]⟩)

theorem topoSort_ok_props (tasks : List TaskInstance)
    (hnd : (tasks.map TaskInstance.name).Nodup)
    (levels : List (List TaskInstance)) (h : topoSort tasks = .ok levels) :
    (∀ t ∈ tasks, t ∈ levels.flatten) ∧ (∀ t ∈ levels.flatten, t ∈ tasks) ∧
    ((levels.flatten.map TaskInstance.name).Nodup) ∧ LevelsOrdered levels [] :=
  topoSortLoop_ok_props tasks hnd (tasks.length + 1) [] (buildInDegree tasks) [] levels
    (KahnInv_init tasks hnd) h

theorem mem_setFirstStatus_nodup (n : String) (s : TaskStatus) :
    ∀ (st : RunState), ((st.map (fun p => p.1.name)).Nodup) →
      ∀ p ∈ setFirstStatus st n s, (¬ p.1.name = n ∧ p ∈ st) ∨ (p.1.name = n ∧ p.2 = s) := by
  intro st
  induction st with
  | nil => intro _ p hp; simp [setFirstStatus] at hp
  | cons q rest ih =>
      intro hnd p hp
      rw [List.map_cons, List.nodup_cons] at hnd
      rw [setFirstStatus] at hp
      by_cases hc : q.1.name = n
      · rw [if_pos hc] at hp
        rcases List.mem_cons.mp hp with hh | hh
        · subst hh; exact Or.inr ⟨hc, rfl⟩
        · refine Or.inl ⟨?_, List.mem_cons_of_mem _ hh⟩
          intro hcon
          exact hnd.1 ((hc.trans hcon.symm) ▸ List.mem_map.mpr ⟨p, hh, rfl⟩)
      · rw [if_neg hc] at hp
        rcases List.mem_cons.mp hp with hh | hh
        · subst hh; exact Or.inl ⟨hc, List.mem_cons_self _ _⟩
        · rcases ih hnd.2 p hh with ⟨h1, h2⟩ | hh2
          · exact Or.inl ⟨h1, List.mem_cons_of_mem _ h2⟩
          · exact Or.inr hh2

theorem mem_singleMap (tasks : List TaskInstance) (tn : String)
    (p : TaskInstance × TaskStatus)
    (hp : p ∈ (tasks.map (fun t => (t, TaskStatus.pending))).map
      (fun p => if p.1.name = tn then (p.1, TaskStatus.pending)
        else (p.1, TaskStatus.skipped))) :
    ¬ p.1.name = tn → p.2 = .skipped := by
  intro hne
  rcases List.mem_map.mp hp with ⟨q, _, hq⟩
  by_cases hc : q.1.name = tn
  · rw [if_pos hc] at hq
    have hfst : p.1 = q.1 := (congrArg Prod.fst hq).symm
    exact absurd (by rw [hfst]; exact hc) hne
  · rw [if_neg hc] at hq
    rw [← hq]

/-- C2: whenever `Execute` returns a run without an error (both scheduling
modes), every task's final status is terminal — `success`, `failed`,
`skipped` or `upstream_failed`, never `running` or `pending` — and the
aggregate status is `success` only if every non-skipped task ended in
`success`, while it is `failed` whenever some task ended `failed` or
`upstream_failed`. -/
theorem execute_terminal (tasks : List TaskInstance) (env : String → TaskEnv)
    (ctxAt : Nat → Bool) (taskName : Option String)
    (hnd : (tasks.map TaskInstance.name).Nodup)
    (st : RunState) (rs : TaskStatus)
    (h : ExecuteModel tasks env ctxAt taskName = .ok st rs) :
    (∀ p ∈ st, p.2 = .success ∨ p.2 = .failed ∨ p.2 = .skipped ∨ p.2 = .upstreamFailed) ∧
    (rs = .success → ∀ p ∈ st, ¬ p.2 = .skipped → p.2 = .success) ∧
    ((∃ p ∈ st, p.2 = .failed ∨ p.2 = .upstreamFailed) → rs = .failed) := by
  suffices hsuff : rs = runStatus st ∧
      (∀ p ∈ st, p.2 = .success ∨ p.2 = .failed ∨ p.2 = .skipped ∨ p.2 = .upstreamFailed) by
    obtain ⟨hrs, hterm⟩ := hsuff
    refine ⟨hterm, ?_, ?_⟩
    · intro hs p hp hsk
      have hnf := runStatus_success_no_fail st (hrs ▸ hs) p hp
      rcases hterm p hp with h1 | h1 | h1 | h1
      · exact h1
      · exact absurd h1 hnf.1
      · exact absurd h1 hsk
      · exact absurd h1 hnf.2
    · rintro ⟨p, hp, hf⟩
      rw [hrs]
      exact runStatus_failed_of_mem st p hp hf
  cases taskName with
  | none =>
      simp only [ExecuteModel] at h
      cases htop : topoSort tasks with
      | error m => rw [htop] at h; exact absurd h (by simp)
      | ok levels =>
          rw [htop] at h
          injection h with h1 h2
          subst h1; subst h2
          refine ⟨rfl, ?_⟩
          intro p hp
          obtain ⟨hcov, _, hflnd, _⟩ := topoSort_ok_props tasks hnd levels htop
          have hfst := executeDAG_fst env ctxAt levels 0
            (tasks.map (fun t => (t, TaskStatus.pending)))
          have hfsts : (executeDAG env ctxAt levels 0
              (tasks.map (fun t => (t, TaskStatus.pending)))).map Prod.fst = tasks :=
            hfst.trans (init_fsts tasks)
          have hnames := names_eq_of_fst_eq _ _ hfst
          have hp1 : p.1 ∈ tasks := by
            have := List.mem_map_of_mem Prod.fst hp
            rw [hfsts] at this
            exact this
          have hpe : lookupStatus (executeDAG env ctxAt levels 0
              (tasks.map (fun t => (t, TaskStatus.pending)))) p.1.name = p.2 :=
            mem_lookupStatus _ (by rw [hnames, init_names]; exact hnd) p hp
          have hlook := executeDAG_pending_terminal env ctxAt levels 0
            (tasks.map (fun t => (t, TaskStatus.pending))) p.1 hflnd (hcov p.1 hp1)
            (by rw [init_names]; exact List.mem_map.mpr ⟨p.1, hp1, rfl⟩)
            (lookupStatus_init tasks p.1.name)
          rw [hpe] at hlook
          rcases hlook with h1 | h1 | h1
          · exact Or.inl h1
          · exact Or.inr (Or.inl h1)
          · exact Or.inr (Or.inr (Or.inr h1))
  | some tn =>
      simp only [ExecuteModel] at h
      by_cases hany : tasks.any (fun t => t.name = tn) = true
      · rw [if_pos hany] at h
        injection h with h1 h2
        subst h1; subst h2
        refine ⟨rfl, ?_⟩
        intro p hp
        have hst1names : ((tasks.map (fun t => (t, TaskStatus.pending))).map
            (fun p => if p.1.name = tn then (p.1, TaskStatus.pending)
              else (p.1, TaskStatus.skipped))).map (fun p => p.1.name) =
            tasks.map TaskInstance.name := by
          rw [List.map_map, List.map_map]
          refine List.map_congr_left ?_
          intro t _
          by_cases ht : t.name = tn <;> simp [ht]
        rcases mem_setFirstStatus_nodup tn (executeTask (env tn)).status _
            (by rw [hst1names]; exact hnd) p hp with ⟨hne, hmem⟩ | ⟨_, hs⟩
        · exact Or.inr (Or.inr (Or.inl (mem_singleMap tasks tn p hmem hne)))
        · rw [hs]
          rcases executeTask_status_terminal (env tn) with h1 | h1
          · exact Or.inl h1
          · exact Or.inr (Or.inl h1)
      · rw [if_neg hany] at h
        exact absurd h (by simp)

theorem execute_terminal_witness :
    ((([⟨"a", []⟩, ⟨"b", ["a"]⟩] : List TaskInstance).map TaskInstance.name).Nodup) ∧
    ExecuteModel [⟨"a", []⟩, ⟨"b", ["a"]⟩]
      (fun _ => ⟨false, fun _ => true, fun _ => false, fun _ => false, 0, 0⟩)
      (fun _ => false) none =
      .ok [(⟨"a", []⟩, .failed), (⟨"b", ["a"]⟩, .upstreamFailed)] .failed ∧
    ((∀ p ∈ ([(⟨"a", []⟩, .failed), (⟨"b", ["a"]⟩, .upstreamFailed)] : RunState),
        p.2 = .success ∨ p.2 = .failed ∨ p.2 = .skipped ∨ p.2 = .upstreamFailed) ∧
     (TaskStatus.failed = .success →
        ∀ p ∈ ([(⟨"a", []⟩, .failed), (⟨"b", ["a"]⟩, .upstreamFailed)] : RunState),
          ¬ p.2 = .skipped → p.2 = .success) ∧
     ((∃ p ∈ ([(⟨"a", []⟩, .failed), (⟨"b", ["a"]⟩, .upstreamFailed)] : RunState),
        p.2 = .failed ∨ p.2 = .upstreamFailed) → TaskStatus.failed = .failed)) :=
  ⟨by decide, rfl,
    execute_terminal [⟨"a", []⟩, ⟨"b", ["a"]⟩]
      (fun _ => ⟨false, fun _ => true, fun _ => false, fun _ => false, 0, 0⟩)
      (fun _ => false) none (by decide)
      [(⟨"a", []⟩, .failed), (⟨"b", ["a"]⟩, .upstreamFailed)] .failed rfl⟩

/-- C1 counterexample: in a run whose context is cancelled before the
second level, task `b` (whose only dependency `a` has final status
`failed`) ends `failed` — not `upstream_failed` and not `skipped`:
`executeDAG`'s cancellation branch marks still-pending tasks `failed`
regardless of upstream failures. -/
theorem upstream_failure_counterexample :
    ExecuteModel [⟨"a", []⟩, ⟨"b", ["a"]⟩]
      (fun _ => ⟨false, fun _ => true, fun _ => false, fun _ => false, 0, 0⟩)
      (fun i => decide (1 ≤ i)) none =
      .ok [(⟨"a", []⟩, .failed), (⟨"b", ["a"]⟩, .failed)] .failed ∧
    "a" ∈ (⟨"b", ["a"]⟩ : TaskInstance).dependsOn ∧
    lookupStatus [(⟨"a", []⟩, .failed), (⟨"b", ["a"]⟩, .failed)] "a" = .failed ∧
    ¬ lookupStatus [(⟨"a", []⟩, .failed), (⟨"b", ["a"]⟩, .failed)] "b" = .upstreamFailed ∧
    ¬ lookupStatus [(⟨"a", []⟩, .failed), (⟨"b", ["a"]⟩, .failed)] "b" = .skipped :=
  ⟨rfl, by decide, by decide, by decide, by decide⟩

theorem executeDAG_upstream (env : String → TaskEnv) (ctxAt : Nat → Bool)
    (hctx : ∀ i, ctxAt i = false) :
    ∀ (levels : List (List TaskInstance)) (prior : List String) (i : Nat) (st : RunState),
      (levels.flatten.map TaskInstance.name).Nodup →
      LevelsOrdered levels prior →
      (∀ n ∈ prior, ¬ n ∈ levels.flatten.map TaskInstance.name) →
      (∀ t ∈ levels.flatten, t.name ∈ st.map (fun p => p.1.name)) →
      (∀ t ∈ levels.flatten, lookupStatus st t.name = .pending) →
      ∀ t ∈ levels.flatten, ∀ d ∈ t.dependsOn,
        (lookupStatus (executeDAG env ctxAt levels i st) d = .failed ∨
         lookupStatus (executeDAG env ctxAt levels i st) d = .upstreamFailed) →
        lookupStatus (executeDAG env ctxAt levels i st) t.name = .upstreamFailed := by
  intro levels
  induction levels with
  | nil => intro prior i st _ _ _ _ _ t ht; simp at ht
  | cons lvl rest ih =>
      intro prior i st hnd hord hdisj hentry hpend t ht d hd hdf
      rw [List.flatten_cons, List.map_append, List.nodup_append] at hnd
      obtain ⟨hnd1, hnd2, hdisj2⟩ := hnd
      obtain ⟨hordh, hordt⟩ := hord
      simp only [List.flatten_cons, List.map_append, List.mem_append] at hdisj hentry hpend ht
      have hred : executeDAG env ctxAt (lvl :: rest) i st =
          executeDAG env ctxAt rest (i + 1) (runLevel env st lvl) := by
        simp only [executeDAG, hctx i, Bool.false_eq_true, if_false]
      rw [hred] at hdf ⊢
      have hst1fst : (runLevel env st lvl).map Prod.fst = st.map Prod.fst := by
        rw [runLevel_eq_fold]; exact levelFold_fst env _ lvl st
      rcases ht with htl | htr
      · have hdpr : d ∈ prior := hordh t htl d hd
        have hdno := hdisj d hdpr
        have hdfinal : lookupStatus (executeDAG env ctxAt rest (i + 1)
            (runLevel env st lvl)) d = lookupStatus st d := by
          rw [executeDAG_lookup_not_mem env ctxAt rest _ _ _ (fun hc => hdno (Or.inr hc)),
            runLevel_eq_fold,
            levelFold_lookup_not_mem env _ lvl st d (fun hc => hdno (Or.inl hc))]
        rw [hdfinal] at hdf
        have hup : hasUpstreamFailure t (fun n => lookupStatus st n) = true := by
          unfold hasUpstreamFailure
          refine List.any_eq_true.mpr ⟨d, hd, ?_⟩
          simpa using hdf
        have htno : ¬ t.name ∈ rest.flatten.map TaskInstance.name :=
          fun hc => hdisj2 (List.mem_map.mpr ⟨t, htl, rfl⟩) hc
        rw [executeDAG_lookup_not_mem env ctxAt rest _ _ _ htno, runLevel_eq_fold,
          levelFold_lookup_mem env _ lvl st t hnd1 htl (hentry t (Or.inl htl)),
          if_pos hup]
      · refine ih (prior ++ lvl.map TaskInstance.name) (i + 1) (runLevel env st lvl)
          hnd2 hordt ?_ ?_ ?_ t htr d hd hdf
        · intro n hn hc
          rcases List.mem_append.mp hn with hn1 | hn2
          · exact hdisj n hn1 (Or.inr hc)
          · exact hdisj2 hn2 hc
        · intro u hu
          rw [names_eq_of_fst_eq st _ hst1fst]
          exact hentry u (Or.inr hu)
        · intro u hu
          have hun : ¬ u.name ∈ lvl.map TaskInstance.name :=
            fun hc => hdisj2 hc (List.mem_map.mpr ⟨u, hu, rfl⟩)
          rw [runLevel_eq_fold, levelFold_lookup_not_mem env _ lvl st u.name hun]
          exact hpend u (Or.inr hu)

/-- C1 (amended): in a full (non-single-task) run of a DAG with unique task
names whose context is never cancelled, every task one of whose declared
dependencies ends `failed` or `upstream_failed` itself ends
`upstream_failed` — hence satisfies the claim's upstream_failed-or-skipped
disjunction; the cancellation path is the documented exception, where
dependents of a failed task end `failed` instead. -/
theorem upstream_failure_propagation (tasks : List TaskInstance)
    (env : String → TaskEnv) (ctxAt : Nat → Bool)
    (hnd : (tasks.map TaskInstance.name).Nodup)
    (hctx : ∀ i, ctxAt i = false)
    (st : RunState) (rs : TaskStatus)
    (h : ExecuteModel tasks env ctxAt none = .ok st rs) :
    ∀ p ∈ st, ∀ d ∈ p.1.dependsOn,
      (∃ q ∈ st, q.1.name = d ∧ (q.2 = .failed ∨ q.2 = .upstreamFailed)) →
      (p.2 = .upstreamFailed ∨ p.2 = .skipped) := by
  simp only [ExecuteModel] at h
  cases htop : topoSort tasks with
  | error m => rw [htop] at h; exact absurd h (by simp)
  | ok levels =>
      rw [htop] at h
      injection h with h1 h2
      subst h1
      intro p hp d hd hex
      obtain ⟨hcov, _, hflnd, hord⟩ := topoSort_ok_props tasks hnd levels htop
      have hfst := executeDAG_fst env ctxAt levels 0
        (tasks.map (fun t => (t, TaskStatus.pending)))
      have hnames : (executeDAG env ctxAt levels 0
          (tasks.map (fun t => (t, TaskStatus.pending)))).map (fun p => p.1.name) =
          tasks.map TaskInstance.name := by
        rw [names_eq_of_fst_eq _ _ hfst, init_names]
      have hndD : ((executeDAG env ctxAt levels 0
          (tasks.map (fun t => (t, TaskStatus.pending)))).map
            (fun p => p.1.name)).Nodup := by
        rw [hnames]; exact hnd
      have hfsts : (executeDAG env ctxAt levels 0
          (tasks.map (fun t => (t, TaskStatus.pending)))).map Prod.fst = tasks :=
        hfst.trans (init_fsts tasks)
      have hp1 : p.1 ∈ tasks := by
        have := List.mem_map_of_mem Prod.fst hp
        rw [hfsts] at this
        exact this
      obtain ⟨q, hq, hqd, hqf⟩ := hex
      have hqe : lookupStatus (executeDAG env ctxAt levels 0
          (tasks.map (fun t => (t, TaskStatus.pending)))) d = q.2 := by
        rw [← hqd]
        exact mem_lookupStatus _ hndD q hq
      have hdF : lookupStatus (executeDAG env ctxAt levels 0
          (tasks.map (fun t => (t, TaskStatus.pending)))) d = .failed ∨
          lookupStatus (executeDAG env ctxAt levels 0
          (tasks.map (fun t => (t, TaskStatus.pending)))) d = .upstreamFailed := by
        rcases hqf with h1 | h1
        · exact Or.inl (hqe.trans h1)
        · exact Or.inr (hqe.trans h1)
      have hpe : lookupStatus (executeDAG env ctxAt levels 0
          (tasks.map (fun t => (t, TaskStatus.pending)))) p.1.name = p.2 :=
        mem_lookupStatus _ hndD p hp
      have hres := executeDAG_upstream env ctxAt hctx levels [] 0
        (tasks.map (fun t => (t, TaskStatus.pending))) hflnd hord
        (by intro n hn; simp at hn)
        (by intro u hu
            rw [init_names]
            exact List.mem_map.mpr ⟨u, (topoSort_ok_props tasks hnd levels htop).2.1 u hu, rfl⟩)
        (by intro u _; exact lookupStatus_init tasks u.name)
        p.1 (hcov p.1 hp1) d hd hdF
      left
      rw [← hpe]
      exact hres

theorem upstream_failure_propagation_witness :
    ((([⟨"a", []⟩, ⟨"b", ["a"]⟩] : List TaskInstance).map TaskInstance.name).Nodup) ∧
    (∀ i, (fun _ : Nat => false) i = false) ∧
    ExecuteModel [⟨"a", []⟩, ⟨"b", ["a"]⟩]
      (fun _ => ⟨false, fun _ => true, fun _ => false, fun _ => false, 0, 0⟩)
      (fun _ => false) none =
      .ok [(⟨"a", []⟩, .failed), (⟨"b", ["a"]⟩, .upstreamFailed)] .failed ∧
    (∀ p ∈ ([(⟨"a", []⟩, .failed), (⟨"b", ["a"]⟩, .upstreamFailed)] : RunState),
      ∀ d ∈ p.1.dependsOn,
      (∃ q ∈ ([(⟨"a", []⟩, .failed), (⟨"b", ["a"]⟩, .upstreamFailed)] : RunState),
        q.1.name = d ∧ (q.2 = .failed ∨ q.2 = .upstreamFailed)) →
      (p.2 = .upstreamFailed ∨ p.2 = .skipped)) :=
  ⟨by decide, fun i => rfl, rfl,
    upstream_failure_propagation [⟨"a", []⟩, ⟨"b", ["a"]⟩]
      (fun _ => ⟨false, fun _ => true, fun _ => false, fun _ => false, 0, 0⟩)
      (fun _ => false) (by decide) (fun i => rfl)
      [(⟨"a", []⟩, .failed), (⟨"b", ["a"]⟩, .upstreamFailed)] .failed rfl⟩

end Pit
